import Mathlib

/-!
# A shallow embedding of `HW-TILE/tiling.cpp`

This file models the domino-tiling checker of the repository: the
BFS-based augmenting-path search `augmenting_path`, the Edmonds–Karp
maximum-flow routine `max_flow`, the bipartite graph builder
`BiPartGraph::constructGraph` with its helpers, and the top-level
entry point `has_tiling`, together with theorems about them.

C++ `Vertex*` pointers are modelled by natural-number identities
(`VId`); a null pointer is `Option.none` where a nullable pointer is
taken as an argument.  `std::unordered_set<Vertex*>` becomes a
duplicate-free list of identities, `std::unordered_map` becomes an
association list whose lookup (`map::find`) is `alook`; the
`operator[]` read, which default-inserts `0` on a missing key, is
modelled by `Graph.wread` / `Graph.wreadIns`.  A call to `abort()` is
modelled as the `Except.error` outcome, and the potentially
non-terminating `while (true)` loop of `max_flow` is modelled by a
fuel-indexed iteration, `Option.none` standing for a computation that
has not terminated within the given fuel.
-/

set_option maxHeartbeats 1600000

/-- Vertex identity: stands for one `Vertex*` object of the C++ code. -/
abbrev VId := Nat

/-- First-match lookup in an association list (`std::unordered_map::find`). -/
def alook {α : Type} : List (VId × α) → VId → Option α
  | [], _ => none
  | (k, a) :: rest, x => if x = k then some a else alook rest x

/-- Insert-or-overwrite in an association list (`map[k] = a`). -/
def aset {α : Type} : List (VId × α) → VId → α → List (VId × α)
  | [], k, a => [(k, a)]
  | (k', a') :: rest, k, a =>
      if k = k' then (k, a) :: rest else (k', a') :: aset rest k a

/-- The data of one C++ `Vertex`: its adjacency set `neighs` and its
per-neighbour capacity map `weights`. -/
structure Vtx where
  neighs : List VId
  weights : List (VId × Int)
  deriving DecidableEq

/-- A graph value: the vertex set `V` handed to the flow engine
(`verts`) together with the store of vertex objects (`vtx`), keyed by
identity. -/
structure Graph where
  verts : List VId
  vtx : List (VId × Vtx)
  deriving DecidableEq

/-- Equality of engine results is decidable (needed to evaluate the
engine on concrete inputs inside proofs). -/
instance {e a : Type} [DecidableEq e] [DecidableEq a] : DecidableEq (Except e a)
  | .ok x, .ok y =>
      if h : x = y then isTrue (by rw [h]) else isFalse (fun hc => h (by cases hc; rfl))
  | .error x, .error y =>
      if h : x = y then isTrue (by rw [h]) else isFalse (fun hc => h (by cases hc; rfl))
  | .ok _, .error _ => isFalse (fun hc => Except.noConfusion hc)
  | .error _, .ok _ => isFalse (fun hc => Except.noConfusion hc)

/-- Dereference a vertex identity (a vertex that was never allocated
dereferences to an empty record; the C++ code never does this). -/
def Graph.getVtx (G : Graph) (v : VId) : Vtx :=
  (alook G.vtx v).getD ⟨[], []⟩

/-- `v->neighs`. -/
def Graph.neighsOf (G : Graph) (v : VId) : List VId :=
  (G.getVtx v).neighs

/-- `v->weights.find(n)`, as an `Option`. -/
def Graph.wfind (G : Graph) (v n : VId) : Option Int :=
  alook (G.getVtx v).weights n

/-- The value produced by the read `v->weights[n]`: the stored weight,
or `0` when the key is absent (in C++ the read then also inserts the
key; `Graph.wreadIns` models that side effect where it can matter). -/
def Graph.wread (G : Graph) (v n : VId) : Int :=
  (G.wfind v n).getD 0

/-- Store a weight: `v->weights[n] = x` (creating the entry if needed). -/
def Graph.wstore (G : Graph) (v n : VId) (x : Int) : Graph :=
  { G with vtx := aset G.vtx v { G.getVtx v with weights := aset (G.getVtx v).weights n x } }

/-- The read `v->weights[n]` with its insert-if-missing side effect:
returns the value together with the (possibly extended) graph. -/
def Graph.wreadIns (G : Graph) (v n : VId) : Int × Graph :=
  match G.wfind v n with
  | some w => (w, G)
  | none => (0, G.wstore v n 0)

/-- In-place update of `v->weights[n]` through `operator[]` (used by
the augmentation step `--weights[...]` / `++weights[...]`): the key is
default-inserted at `0` if missing, then `f` is applied. -/
def Graph.wmodify (G : Graph) (v n : VId) (f : Int → Int) : Graph :=
  G.wstore v n (f (G.wread v n))

/-- Insert into an adjacency set: `v->neighs.insert(n)` (no duplicates). -/
def Graph.insNeigh (G : Graph) (v n : VId) : Graph :=
  let d := G.getVtx v
  if n ∈ d.neighs then G
  else { G with vtx := aset G.vtx v { d with neighs := d.neighs ++ [n] } }

/-- Basic lemmas about association lists. -/
theorem alook_aset_self {α : Type} (l : List (VId × α)) (k : VId) (a : α) :
    alook (aset l k a) k = some a := by
  induction l with
  | nil => simp [alook, aset]
  | cons p rest ih =>
    obtain ⟨k', a'⟩ := p
    by_cases h : k = k' <;> simp [aset, alook, h, ih]

theorem alook_aset_other {α : Type} (l : List (VId × α)) (k k' : VId) (a : α)
    (h : k' ≠ k) : alook (aset l k a) k' = alook l k' := by
  induction l with
  | nil => simp [alook, aset, h]
  | cons p rest ih =>
    obtain ⟨k₀, a₀⟩ := p
    by_cases hk : k = k₀
    · subst hk
      simp [aset, alook, h]
    · by_cases hk' : k' = k₀ <;> simp [aset, alook, hk, hk', ih]

theorem alook_mem {α : Type} {l : List (VId × α)} {k : VId} {a : α}
    (h : alook l k = some a) : (k, a) ∈ l := by
  induction l with
  | nil => simp [alook] at h
  | cons p rest ih =>
    obtain ⟨k', a'⟩ := p
    by_cases hk : k = k'
    · subst hk
      simp [alook] at h
      simp [h]
    · simp [alook, hk] at h
      exact List.mem_cons_of_mem _ (ih h)

/-! ## Breadth-first search (the body of `augmenting_path`) -/

/-- The mutable state of the BFS in `augmenting_path`: the queue `Q`,
the reached set `R`, and the predecessor map `prev`. -/
structure BfsSt where
  Q : List VId
  R : List VId
  prev : List (VId × VId)
  deriving DecidableEq

/-- One neighbour inspection of the BFS inner loop: skip when
`cur->weights[nei] == 0`, otherwise push `nei` and record its
predecessor if it was not reached before. -/
def relax (G : Graph) (cur nei : VId) (st : BfsSt) : BfsSt :=
  if G.wread cur nei = 0 then st
  else if nei ∈ st.R then st
  else ⟨st.Q ++ [nei], nei :: st.R, (nei, cur) :: st.prev⟩

/-- Process every neighbour of the dequeued vertex `cur`. -/
def expand (G : Graph) (cur : VId) (st : BfsSt) : BfsSt :=
  (G.neighsOf cur).foldl (fun a n => relax G cur n a) st

/-- All vertex identities mentioned anywhere in a graph value (used
only to bound the BFS: the C++ graph is finite because only finitely
many `Vertex` objects exist). -/
def Graph.ids (G : Graph) : List VId :=
  G.verts ++ G.vtx.map Prod.fst ++ (G.vtx.map (fun p => p.2.neighs)).flatten

theorem ids_closed (G : Graph) : ∀ v n, n ∈ G.neighsOf v → n ∈ G.ids := by
  intro v n hn
  unfold Graph.neighsOf Graph.getVtx at hn
  cases h : alook G.vtx v with
  | none => rw [h] at hn; simp at hn
  | some d =>
    rw [h] at hn
    simp at hn
    have hmem : (v, d) ∈ G.vtx := alook_mem h
    unfold Graph.ids
    refine List.mem_append.mpr (Or.inr ?_)
    exact List.mem_flatten.mpr ⟨d.neighs, List.mem_map_of_mem _ hmem, hn⟩

/-- Count of potential vertices not yet reached. -/
def remCount (univ R : List VId) : Nat :=
  (univ.filter (fun x => decide (x ∉ R))).length

/-- Termination measure for the BFS while-loop. -/
def bfsMeasure (univ : List VId) (st : BfsSt) : Nat :=
  remCount univ st.R + st.Q.length

theorem remCount_cons_le (univ R : List VId) (n : VId) :
    remCount univ (n :: R) ≤ remCount univ R := by
  induction univ with
  | nil => simp [remCount]
  | cons a rest ih =>
    by_cases h : a ∈ n :: R
    · rcases List.mem_cons.mp h with h' | h'
      · subst h'
        by_cases hR : a ∈ R <;>
          simp [remCount, List.filter_cons, hR, List.mem_cons] at ih ⊢ <;> omega
      · simp [remCount, List.filter_cons, h', List.mem_cons] at ih ⊢
        omega
    · have h1 : a ∉ R := fun hc => h (List.mem_cons_of_mem _ hc)
      simp [remCount, List.filter_cons, h, h1, List.mem_cons] at ih ⊢
      have h2 : ¬ a = n := fun hc => h (by simp [hc])
      simp [h2]
      omega

theorem remCount_cons_lt (univ R : List VId) (n : VId)
    (hn : n ∈ univ) (hR : n ∉ R) : remCount univ (n :: R) < remCount univ R := by
  induction univ with
  | nil => cases hn
  | cons a rest ih =>
    simp only [remCount, List.filter_cons] at ih ⊢
    by_cases ha : a = n
    · subst ha
      have h1 : decide (a ∉ a :: R) = false := by simp
      have h2 : decide (a ∉ R) = true := by simp [hR]
      rw [h1, h2]
      simp only [Bool.false_eq_true, if_false, if_true, List.length_cons]
      have hle := remCount_cons_le rest R a
      simp only [remCount] at hle
      omega
    · have heq : decide (a ∉ n :: R) = decide (a ∉ R) := by
        by_cases haR : a ∈ R <;> simp [List.mem_cons, ha, haR]
      rw [heq]
      rcases List.mem_cons.mp hn with h' | h'
      · exact absurd h'.symm ha
      · have hlt := ih h'
        cases hd : decide (a ∉ R) <;> simp only [hd, if_false, if_true,
          Bool.false_eq_true, List.length_cons] <;> omega

theorem bfsMeasure_relax_le (G : Graph) (univ : List VId) (cur nei : VId)
    (st : BfsSt) (hn : nei ∈ univ) :
    bfsMeasure univ (relax G cur nei st) ≤ bfsMeasure univ st := by
  unfold relax
  by_cases h0 : G.wread cur nei = 0
  · simp [h0]
  · by_cases hR : nei ∈ st.R
    · simp [h0, hR]
    · simp [h0, hR, bfsMeasure]
      have := remCount_cons_lt univ st.R nei hn hR
      omega

theorem bfsMeasure_foldl_le (G : Graph) (univ : List VId) (cur : VId)
    (ns : List VId) (st : BfsSt) (h : ∀ n ∈ ns, n ∈ univ) :
    bfsMeasure univ (ns.foldl (fun a n => relax G cur n a) st) ≤ bfsMeasure univ st := by
  induction ns generalizing st with
  | nil => simp
  | cons n rest ih =>
    simp only [List.foldl_cons]
    calc bfsMeasure univ (rest.foldl (fun a n => relax G cur n a) (relax G cur n st))
        ≤ bfsMeasure univ (relax G cur n st) :=
          ih (relax G cur n st) (fun m hm => h m (List.mem_cons_of_mem _ hm))
      _ ≤ bfsMeasure univ st := bfsMeasure_relax_le G univ cur n st (h n (List.mem_cons_self n rest))

theorem bfsMeasure_expand_le (G : Graph) (univ : List VId) (cur : VId)
    (st : BfsSt) (hcl : ∀ v n, n ∈ G.neighsOf v → n ∈ univ) :
    bfsMeasure univ (expand G cur st) ≤ bfsMeasure univ st :=
  bfsMeasure_foldl_le G univ cur (G.neighsOf cur) st (fun n hn => hcl cur n hn)

/-- The BFS while-loop (dequeue, expand, repeat until the queue is
empty), structurally recursive on a fuel bound so that it computes by
kernel reduction.  The C++ loop has no fuel: `bfsMeasure G.ids`
strictly decreases at every iteration, so the fuel
`bfsMeasure G.ids st + 1` supplied by `augmenting_path` is never
exhausted (`bfsGo_empties_queue` below) and the embedding computes
the loop's true fixpoint. -/
def bfsGo (G : Graph) : Nat → BfsSt → BfsSt
  | 0, st => st
  | fuel + 1, st =>
      match st.Q with
      | [] => st
      | c :: Q' => bfsGo G fuel (expand G c ⟨Q', st.R, st.prev⟩)

/-- With fuel exceeding the measure, the BFS runs to completion: the
final queue is empty. -/
theorem bfsGo_empties_queue (G : Graph) (fuel : Nat) (st : BfsSt)
    (hfuel : bfsMeasure G.ids st < fuel) : (bfsGo G fuel st).Q = [] := by
  induction fuel generalizing st with
  | zero => omega
  | succ fuel ih =>
    show (match st.Q with
      | [] => st
      | c :: Q' => bfsGo G fuel (expand G c ⟨Q', st.R, st.prev⟩)).Q = []
    cases hQ : st.Q with
    | nil => simp [hQ]
    | cons c Q' =>
      apply ih
      have hle := bfsMeasure_expand_le G G.ids c ⟨Q', st.R, st.prev⟩ (ids_closed G)
      simp only [bfsMeasure] at hle hfuel ⊢
      rw [hQ] at hfuel
      simp only [List.length_cons] at hfuel
      omega

/-- Reconstruct the path backwards from `t` by following predecessor
links (`P.push_back(t); while (P.back() != s) P.push_back(prev[P.back()]);`).
`fuel` bounds the number of steps; under the BFS invariants the chain
reaches `s` within `prev.length` steps and neither truncation branch
ever fires (in C++ a missing `prev` entry would make the loop spin on
null forever, which likewise never happens). -/
def walkBack (pr : List (VId × VId)) (s : VId) : Nat → VId → List VId
  | 0, v => [v]
  | fuel + 1, v =>
      if v = s then [v]
      else
        match alook pr v with
        | some u => v :: walkBack pr s fuel u
        | none => [v]

/-- The adjacency/weight-table check both engine entry points run on
entry: every neighbour of every vertex of `V` has an entry in that
vertex's weight map. -/
def weightsComplete (G : Graph) : Bool :=
  G.verts.all fun v => (G.neighsOf v).all fun n => (G.wfind v n).isSome

/-- `augmenting_path(s, t, V, P)`: abort (`.error`) when `s` or `t` is
null, is not a member of `V`, or some vertex of `V` fails the
weight-table check; otherwise run the BFS and either return the
reconstructed path (`true`) or report that `t` was not reached
(`false`, with the output vector left empty as in the caller). -/
def augmenting_path (s t : Option VId) (G : Graph) : Except Unit (Bool × List VId) :=
  match s, t with
  | some sv, some tv =>
      if sv ∈ G.verts ∧ tv ∈ G.verts then
        if weightsComplete G then
          let fin := bfsGo G (bfsMeasure G.ids ⟨[sv], [sv], []⟩ + 1) ⟨[sv], [sv], []⟩
          if tv ∈ fin.R then
            .ok (true, (walkBack fin.prev sv fin.prev.length tv).reverse)
          else
            .ok (false, [])
        else .error ()
      else .error ()
  | _, _ => .error ()

/-! ## `max_flow` -/

/-- Residual-graph construction: the deep copy made at the top of
`max_flow`.  The C++ copy map `C` sends each vertex to a fresh
`Vertex`; since the copy is a bijection on the vertices of `V`, it is
modelled as the identity on identities.  The reads `vp->weights[np]`
go through `Graph.wreadIns` because in C++ they would default-insert
a `0` entry into the *caller's* vertex on a missing key (the entry
checks rule that out, which is proved below, not assumed); the second
component of the result is the caller's graph after those reads.
For a neighbour `np` outside `V` the C++ code would write through the
null pointer `C[np]` (undefined behaviour); the embedding maps such
an `np` to itself, and every theorem about `max_flow` on graphs with
out-of-set neighbours carries the closure hypothesis making the two
agree. -/
def buildResidual (G : Graph) : Graph × Graph :=
  let init : Graph := ⟨G.verts, G.verts.map (fun v => (v, ⟨[], []⟩))⟩
  let step2 : Graph × Graph := G.verts.foldl (fun acc vp =>
      (G.neighsOf vp).foldl (fun acc np =>
        let w := acc.2.wreadIns vp np
        ((acc.1.insNeigh vp np).wstore vp np w.1, w.2)) acc) (init, G)
  let res3 : Graph := G.verts.foldl (fun res vp =>
      (G.neighsOf vp).foldl (fun res np =>
        if vp ∈ res.neighsOf np then res
        else (res.insNeigh np vp).wstore np vp 0) res) step2.1
  (res3, step2.2)

/-- One augmentation: walk the path and perform
`--weights[P[i+1]]` on `P[i]` and `++weights[P[i]]` on `P[i+1]` for
every consecutive pair. -/
def augmentPath : Graph → List VId → Graph
  | res, a :: b :: rest =>
      augmentPath ((res.wmodify a b (· - 1)).wmodify b a (· + 1)) (b :: rest)
  | res, _ => res

/-- The `while (true)` loop of `max_flow`, indexed by fuel.  `.ok none`
means the loop has not finished within `fuel` iterations (the C++
loop has no fuel; a state on which every fuel yields `.ok none` is a
run on which `max_flow` never returns). -/
def ekLoop (s t : VId) : Nat → Graph → Except Unit (Option Graph)
  | 0, _ => .ok none
  | fuel + 1, res =>
      match augmenting_path (some s) (some t) res with
      | .error e => .error e
      | .ok (false, _) => .ok (some res)
      | .ok (true, P) => ekLoop s t fuel (augmentPath res P)

/-- Fuel given to the Edmonds–Karp loop: one more than the total
residual capacity out of `s`.  Each successful augmentation removes
exactly one unit from that total (proved below), so this fuel is
never exhausted on a terminating run. -/
def ekFuel (res : Graph) (s : VId) : Nat :=
  1 + ((res.neighsOf s).map (fun n => (res.wread s n).toNat)).sum

/-- `max_flow(s, t, V)`: abort checks, residual construction, the
Edmonds–Karp loop, and the final flow computation
`flow += 1 - C[s]->weights[snp]` summed over the neighbours of the
residual copy of `s`.  The second component of a successful result is
the caller's graph after the call (identical to the input, which is
the non-mutation theorem, not an assumption). -/
def max_flow (s t : Option VId) (G : Graph) : Except Unit (Option (Int × Graph)) :=
  match s, t with
  | some sv, some tv =>
      if sv ∈ G.verts ∧ tv ∈ G.verts then
        if weightsComplete G then
          let b := buildResidual G
          match ekLoop sv tv (ekFuel b.1 sv) b.1 with
          | .error e => .error e
          | .ok none => .ok none
          | .ok (some resF) =>
              .ok (some (((resF.neighsOf sv).map (fun n => 1 - resF.wread sv n)).sum, b.2))
        else .error ()
      else .error ()
  | _, _ => .error ()

/-! ## The tiling checker -/

/-- The loop state of the colouring pass at the top of `has_tiling`:
the output string built so far, the current row and column, and the
`firstElmnt` / `startsEven` flags.  `startsEven` is uninitialised in
the C++ code until the first open cell is seen and is never read
before then; its initial value here is arbitrarily `false`. -/
structure ColSt where
  acc : List Char
  row : Nat
  column : Nat
  firstElmnt : Bool
  startsEven : Bool
  deriving DecidableEq

/-- One iteration of the colouring loop of `has_tiling`: `'#'` and
`'\n'` are copied through (advancing the column resp. the row); a
space is replaced by `'b'` or `'r'`; the first space is always
replaced by `'b'` and fixes `startsEven` from its column parity;
every other character is skipped entirely. -/
def colorStep (st : ColSt) (c : Char) : ColSt :=
  if c = '#' then { st with acc := st.acc ++ ['#'], column := st.column + 1 }
  else if c = '\n' then { st with row := st.row + 1, column := 0, acc := st.acc ++ ['\n'] }
  else if c = ' ' then
    (if st.firstElmnt = false then
      { st with startsEven := decide (st.column % 2 = 0), acc := st.acc ++ ['b'],
                firstElmnt := true, column := st.column + 1 }
    else if st.startsEven then
      (if st.row % 2 ≠ 0 then
        (if st.column % 2 = 0 then { st with acc := st.acc ++ ['b'], column := st.column + 1 }
         else { st with acc := st.acc ++ ['r'], column := st.column + 1 })
       else
        (if st.column % 2 ≠ 0 then { st with acc := st.acc ++ ['b'], column := st.column + 1 }
         else { st with acc := st.acc ++ ['r'], column := st.column + 1 }))
    else
      (if st.row % 2 ≠ 0 then
        (if st.column % 2 = 0 then { st with acc := st.acc ++ ['r'], column := st.column + 1 }
         else { st with acc := st.acc ++ ['b'], column := st.column + 1 })
       else
        (if st.column % 2 ≠ 0 then { st with acc := st.acc ++ ['r'], column := st.column + 1 }
         else { st with acc := st.acc ++ ['b'], column := st.column + 1 })))
  else st

/-- The full colouring pass: `floor` → `modFloor`. -/
def colorFloor (floor : List Char) : List Char :=
  (floor.foldl colorStep ⟨[], 0, 0, false, false⟩).acc

/-- The members of a `BiPartGraph` object (the dead `numVertices`
counter, written once and never read, is omitted).  `store` holds the
`Vertex` objects owned by the graph. -/
structure BiPartGraph where
  totalCheckers : List VId
  blackCheckers : List VId
  redCheckers : List VId
  vertexDictionary : List (VId × (Int × Int))
  store : List (VId × Vtx)
  source : VId
  sink : VId
  deriving DecidableEq

/-- `u->neighs.insert(v); u->weights[v] = w` — the edge-insertion
pattern shared by `addNeighbors`, `setSource` and `setSink`. -/
def storeAddEdge (st : List (VId × Vtx)) (u v : VId) (w : Int) : List (VId × Vtx) :=
  let d := (alook st u).getD ⟨[], []⟩
  let d1 := if v ∈ d.neighs then d else { d with neighs := d.neighs ++ [v] }
  aset st u { d1 with weights := aset d1.weights v w }

/-- A freshly constructed `BiPartGraph()`: `source` and `sink` are
allocated (identities `0` and `1`), everything else is empty. -/
def emptyBi : BiPartGraph :=
  ⟨[], [], [], [], [(0, ⟨[], []⟩), (1, ⟨[], []⟩)], 0, 1⟩

/-- The parsing state of `constructGraph`: the object being built,
the row/column counters, and the next fresh vertex identity (the C++
allocator). -/
structure ParseSt where
  g : BiPartGraph
  row : Nat
  column : Nat
  nextId : Nat
  deriving DecidableEq

/-- One iteration of the `constructGraph` loop: `'#'` advances the
column, `'\n'` advances the row and resets the column, `'b'` creates
a black vertex at the current coordinates, and any other character
creates a red vertex there; both creations advance the column. -/
def parseStep (st : ParseSt) (c : Char) : ParseSt :=
  if c = '#' then { st with column := st.column + 1 }
  else if c = '\n' then { st with row := st.row + 1, column := 0 }
  else if c = 'b' then
    { g := { st.g with
        blackCheckers := st.g.blackCheckers ++ [st.nextId],
        totalCheckers := st.g.totalCheckers ++ [st.nextId],
        vertexDictionary := aset st.g.vertexDictionary st.nextId ((st.row : Int), (st.column : Int)),
        store := aset st.g.store st.nextId ⟨[], []⟩ },
      row := st.row, column := st.column + 1, nextId := st.nextId + 1 }
  else
    { g := { st.g with
        redCheckers := st.g.redCheckers ++ [st.nextId],
        totalCheckers := st.g.totalCheckers ++ [st.nextId],
        vertexDictionary := aset st.g.vertexDictionary st.nextId ((st.row : Int), (st.column : Int)),
        store := aset st.g.store st.nextId ⟨[], []⟩ },
      row := st.row, column := st.column + 1, nextId := st.nextId + 1 }

/-- The inner loop body of `addNeighbors`: compare red checker `k`'s
coordinates against the four neighbours of the black checker `i` and
insert a capacity-1 edge `i → k` on a match (`vertexDictionary.at`
never misses by construction; a miss is modelled by a default
coordinate). -/
def dirMatch (dict : List (VId × (Int × Int))) (up down left right : Int × Int)
    (st : List (VId × Vtx)) (i k : VId) : List (VId × Vtx) :=
  let ck := (alook dict k).getD (0, 0)
  if ck = up then storeAddEdge st i k 1
  else if ck = down then storeAddEdge st i k 1
  else if ck = left then storeAddEdge st i k 1
  else if ck = right then storeAddEdge st i k 1
  else st

/-- `BiPartGraph::addNeighbors`: for every black checker, wire a
capacity-1 edge to every red checker sitting at one of the four
grid-adjacent coordinates. -/
def addNeighbors (g : BiPartGraph) : BiPartGraph :=
  { g with store := g.blackCheckers.foldl (fun st i =>
      let ci := (alook g.vertexDictionary i).getD (0, 0)
      g.redCheckers.foldl
        (fun st k => dirMatch g.vertexDictionary
          (ci.1 - 1, ci.2) (ci.1 + 1, ci.2) (ci.1, ci.2 - 1) (ci.1, ci.2 + 1) st i k)
        st) g.store }

/-- `BiPartGraph::setSource`: capacity-1 edge from the source to every
black checker, then add the source to `totalCheckers`. -/
def setSource (g : BiPartGraph) : BiPartGraph :=
  { g with
    store := g.blackCheckers.foldl (fun st i => storeAddEdge st g.source i 1) g.store,
    totalCheckers :=
      if g.source ∈ g.totalCheckers then g.totalCheckers else g.totalCheckers ++ [g.source] }

/-- `BiPartGraph::setSink`: capacity-1 edge from every red checker to
the sink, then add the sink to `totalCheckers`. -/
def setSink (g : BiPartGraph) : BiPartGraph :=
  { g with
    store := g.redCheckers.foldl (fun st k => storeAddEdge st k g.sink 1) g.store,
    totalCheckers :=
      if g.sink ∈ g.totalCheckers then g.totalCheckers else g.totalCheckers ++ [g.sink] }

/-- `BiPartGraph::constructGraph`: parse the (already coloured) floor
string, then `addNeighbors`, `setSource`, `setSink`. -/
def constructGraph (g : BiPartGraph) (floor : List Char) : BiPartGraph :=
  setSink (setSource (addNeighbors (floor.foldl parseStep ⟨g, 0, 0, 2⟩).g))

/-- `BiPartGraph::isValid`: the two colour classes have equal size. -/
def BiPartGraph.isValid (g : BiPartGraph) : Bool :=
  decide (g.blackCheckers.length = g.redCheckers.length)

/-- `BiPartGraph::getB`: count of black checkers. -/
def BiPartGraph.getB (g : BiPartGraph) : Nat :=
  g.blackCheckers.length

/-- The flow network a `BiPartGraph` hands to `max_flow`. -/
def BiPartGraph.net (g : BiPartGraph) : Graph :=
  ⟨g.totalCheckers, g.store⟩

/-- `BiPartGraph::getFlow`. -/
def BiPartGraph.getFlow (g : BiPartGraph) : Except Unit (Option (Int × Graph)) :=
  max_flow (some g.source) (some g.sink) g.net

/-- `has_tiling(floor)`: colour the floor, build the bipartite graph,
fail fast when the colour classes differ in size, otherwise compare
the max-flow value with the black count.  `.error` is an abort inside
the flow engine and `.ok none` a non-terminating flow computation;
neither occurs on any actual input, but the type records where they
would propagate from. -/
def has_tiling (floor : List Char) : Except Unit (Option Bool) :=
  let cb := constructGraph emptyBi (colorFloor floor)
  if cb.isValid = false then .ok (some false)
  else
    match cb.getFlow with
    | .error e => .error e
    | .ok none => .ok none
    | .ok (some fl) => .ok (some (decide (fl.1 = (cb.getB : Int))))

/-! ## Specification-side notions

The following definitions are *not* translations of code; they follow
the specification's words (domino tilings, maximum flow values,
positive-capacity reachability) and serve as the mathematical side
against which the code-level definitions above are compared. -/

/-- Two grid cells are 4-directionally adjacent. -/
def cellAdj (a b : Int × Int) : Bool :=
  (a.1 = b.1 && (a.2 = b.2 + 1 || b.2 = a.2 + 1)) ||
  (a.2 = b.2 && (a.1 = b.1 + 1 || b.1 = a.1 + 1))

/-- The open cells of a floor-plan string, by the row-major scan the
specification describes: `'#'` is an obstacle, `'\n'` ends a row, any
other character is an open cell. -/
def specOpenCells : List Char → Int → Int → List (Int × Int)
  | [], _, _ => []
  | c :: rest, r, col =>
      if c = '#' then specOpenCells rest r (col + 1)
      else if c = '\n' then specOpenCells rest (r + 1) 0
      else (r, col) :: specOpenCells rest r (col + 1)

/-- `ds` is a complete domino tiling of `cells`: every domino covers
two 4-adjacent open cells and every open cell is covered exactly
once (so no overlaps and no obstacle is covered). -/
def isTiling (cells : List (Int × Int)) (ds : List ((Int × Int) × (Int × Int))) : Bool :=
  ds.all (fun d => cellAdj d.1 d.2 && decide (d.1 ∈ cells) && decide (d.2 ∈ cells)) &&
  cells.all (fun cl => (ds.map Prod.fst ++ ds.map Prod.snd).count cl = 1)

/-- The region `cells` admits a complete tiling by 1×2 dominoes. -/
def SpecTileable (cells : List (Int × Int)) : Prop :=
  ∃ ds, isTiling cells ds = true

/-- Flow out of `v` along the graph's edges. -/
def outFlow (G : Graph) (f : VId → VId → Int) (v : VId) : Int :=
  ((G.neighsOf v).map (f v)).sum

/-- Flow into `v` along the graph's edges. -/
def inFlow (G : Graph) (f : VId → VId → Int) (v : VId) : Int :=
  ((G.verts.filter (fun u => decide (v ∈ G.neighsOf u))).map (fun u => f u v)).sum

/-- `f` is a feasible `s`–`t` flow on `G`: non-negative, within the
edge capacities (zero off the edges), and conserved at every vertex
other than `s` and `t`. -/
structure IsFlow (G : Graph) (s t : VId) (f : VId → VId → Int) : Prop where
  nonneg : ∀ u v, 0 ≤ f u v
  cap : ∀ u v, f u v ≤ (if v ∈ G.neighsOf u then G.wread u v else 0)
  conserv : ∀ v ∈ G.verts, v ≠ s → v ≠ t → outFlow G f v = inFlow G f v

/-- The net value a flow sends out of the source. -/
def flowValue (G : Graph) (f : VId → VId → Int) (s : VId) : Int :=
  outFlow G f s - inFlow G f s

/-- `val` is the maximum achievable flow value from `s` to `t`. -/
def SpecMaxFlowValue (G : Graph) (s t : VId) (val : Int) : Prop :=
  (∃ f, IsFlow G s t f ∧ flowValue G f s = val) ∧
  ∀ f, IsFlow G s t f → flowValue G f s ≤ val

/-! ## The colouring pass: first open cell (claim C10) -/

theorem colorStep_acc_extends (st : ColSt) (c : Char) :
    ∃ t, (colorStep st c).acc = st.acc ++ t := by
  unfold colorStep
  split_ifs <;> first | exact ⟨_, rfl⟩ | exact ⟨[], (List.append_nil _).symm⟩

theorem colorFold_acc_extends (cs : List Char) (st : ColSt) :
    ∃ t, (cs.foldl colorStep st).acc = st.acc ++ t := by
  induction cs generalizing st with
  | nil => exact ⟨[], by simp⟩
  | cons c rest ih =>
    obtain ⟨t1, h1⟩ := colorStep_acc_extends st c
    obtain ⟨t2, h2⟩ := ih (colorStep st c)
    exact ⟨t1 ++ t2, by simp [List.foldl_cons, h2, h1]⟩

/-- Processing characters other than a space neither sets `firstElmnt`
nor emits anything but the copied-through `'#'` and `'\n'`. -/
theorem colorFold_no_space (cs : List Char) (st : ColSt)
    (hsp : ' ' ∉ cs) (hfe : st.firstElmnt = false) :
    (cs.foldl colorStep st).acc
        = st.acc ++ cs.filter (fun c => decide (c = '#') || decide (c = '\n')) ∧
    (cs.foldl colorStep st).firstElmnt = false := by
  induction cs generalizing st with
  | nil => simp [hfe]
  | cons c rest ih =>
    have hc : c ≠ ' ' := fun h => hsp (h ▸ List.mem_cons_self c rest)
    have hrest : ' ' ∉ rest := fun h => hsp (List.mem_cons_of_mem _ h)
    have hstep : (colorStep st c).firstElmnt = false ∧
        (colorStep st c).acc = st.acc ++ List.filter (fun c => decide (c = '#') || decide (c = '\n')) [c] := by
      by_cases h1 : c = '#'
      · subst h1
        unfold colorStep
        simp [hfe]
      · by_cases h2 : c = '\n'
        · subst h2
          unfold colorStep
          simp [hfe]
        · unfold colorStep
          simp [h1, h2, hc, hfe]
    obtain ⟨ht1, ht2⟩ := hstep
    obtain ⟨ih1, ih2⟩ := ih (colorStep st c) hrest ht1
    constructor
    · rw [List.foldl_cons, ih1, ht2]
      simp [List.filter_cons]
      split_ifs <;> simp
    · rw [List.foldl_cons]; exact ih2

/-- Claim C10: whatever precedes it, the first open cell (space) of
the scan is emitted as `'b'`: the output is the copied-through
obstacles and newlines of the prefix, then `'b'`, whatever follows. -/
theorem first_open_cell_black (pre post : List Char) (hsp : ' ' ∉ pre) :
    ∃ tail, colorFloor (pre ++ ' ' :: post)
      = pre.filter (fun c => decide (c = '#') || decide (c = '\n')) ++ 'b' :: tail := by
  unfold colorFloor
  rw [List.foldl_append]
  set st1 := pre.foldl colorStep ⟨[], 0, 0, false, false⟩ with hst1
  obtain ⟨hacc, hfe⟩ := colorFold_no_space pre ⟨[], 0, 0, false, false⟩ hsp rfl
  rw [← hst1] at hacc hfe
  rw [List.foldl_cons]
  have hb : (colorStep st1 ' ').acc = st1.acc ++ ['b'] := by
    unfold colorStep
    simp [hfe]
  obtain ⟨t2, ht2⟩ := colorFold_acc_extends post (colorStep st1 ' ')
  refine ⟨t2, ?_⟩
  rw [ht2, hb, hacc]
  simp [hst1]

/-- Concrete instance of `first_open_cell_black`: after the obstacle
prefix `"#"` the first open cell sits at odd column 1 of even row 0,
where the subsequent-cell parity formula would emit `'r'`; it is
nevertheless emitted as `'b'`. -/
theorem first_open_cell_black_witness :
    ∃ tail, colorFloor ['#', ' '] = ['#'] ++ 'b' :: tail := by
  have h := first_open_cell_black ['#'] [] (by decide)
  simpa using h

/-! ## The parser (claim C5) -/

/-- Claim C5: in `constructGraph`'s parse, `'#'` only advances the
column, `'\n'` advances the row and resets the column, and every
other character creates a grid vertex at the current coordinates
(registered in the dictionary and the vertex set) and advances the
column. -/
theorem parse_char_classes (st : ParseSt) (c : Char) :
    (c = '#' → parseStep st c = { st with column := st.column + 1 }) ∧
    (c = '\n' → parseStep st c = { st with row := st.row + 1, column := 0 }) ∧
    (c ≠ '#' → c ≠ '\n' →
      (parseStep st c).g.vertexDictionary
          = aset st.g.vertexDictionary st.nextId ((st.row : Int), (st.column : Int)) ∧
      (parseStep st c).g.totalCheckers = st.g.totalCheckers ++ [st.nextId] ∧
      (parseStep st c).column = st.column + 1 ∧
      (parseStep st c).row = st.row ∧
      (parseStep st c).nextId = st.nextId + 1) := by
  refine ⟨fun h => ?_, fun h => ?_, fun h1 h2 => ?_⟩
  · subst h; unfold parseStep; simp
  · subst h; unfold parseStep; simp
  · by_cases hb : c = 'b' <;> unfold parseStep <;> simp [h1, h2, hb]

/-- A fresh parse state, used to instantiate `parse_char_classes`. -/
def pSt0 : ParseSt := ⟨emptyBi, 0, 0, 2⟩

/-- `parse_char_classes` applied to the open-cell character `'x'` in a
fresh parse state. -/
theorem parse_char_classes_witness :
    (parseStep pSt0 'x').g.vertexDictionary = aset pSt0.g.vertexDictionary 2 ((0 : Int), (0 : Int)) ∧
    (parseStep pSt0 'x').g.totalCheckers = pSt0.g.totalCheckers ++ [2] ∧
    (parseStep pSt0 'x').column = 0 + 1 ∧
    (parseStep pSt0 'x').row = 0 ∧
    (parseStep pSt0 'x').nextId = 2 + 1 := by
  have h := (parse_char_classes pSt0 'x').2.2 (by decide) (by decide)
  simpa using h

/-! ## The colouring bug (claims C3, C4, C1) -/

/-- Claim C3 fails on the code: in the 1×2 fully open grid the two
(4-adjacent) open cells at (0,0) and (0,1) are both coloured black —
the forced `'b'` for the first open cell is inconsistent with the
parity formula used for every later cell whenever the first open
cell lies in an even row. -/
theorem coloring_not_proper_on_one_row :
    colorFloor [' ', ' '] = ['b', 'b'] ∧
    (constructGraph emptyBi (colorFloor [' ', ' '])).blackCheckers = [2, 3] ∧
    (constructGraph emptyBi (colorFloor [' ', ' '])).redCheckers = [] ∧
    alook (constructGraph emptyBi (colorFloor [' ', ' '])).vertexDictionary 2 = some (0, 0) ∧
    alook (constructGraph emptyBi (colorFloor [' ', ' '])).vertexDictionary 3 = some (0, 1) ∧
    cellAdj (0, 0) (0, 1) = true := by
  decide

/-- Claim C4 fails on the code: the 2×2 fully open grid is coloured
3 black / 1 red (not 2/2), so `has_tiling` answers `false` already at
the `isValid` precheck. -/
theorem two_by_two_grid_rejected :
    (constructGraph emptyBi (colorFloor [' ', ' ', '\n', ' ', ' '])).blackCheckers.length = 3 ∧
    (constructGraph emptyBi (colorFloor [' ', ' ', '\n', ' ', ' '])).redCheckers.length = 1 ∧
    has_tiling [' ', ' ', '\n', ' ', ' '] = .ok (some false) := by
  decide

/-- Claim C1 fails on the code: the 2×2 fully open grid admits a
complete domino tiling (two horizontal dominoes), yet `has_tiling`
returns `false` on it. -/
theorem has_tiling_rejects_tileable_grid :
    has_tiling [' ', ' ', '\n', ' ', ' '] = .ok (some false) ∧
    SpecTileable (specOpenCells [' ', ' ', '\n', ' ', ' '] 0 0) :=
  ⟨by decide, ⟨[((0, 0), (0, 1)), ((1, 0), (1, 1))], by decide⟩⟩

/-! ## The flow-value computation (claim C2) -/

/-- Counterexample graph for claim C2: vertices `{0, 1}` with the
single capacity-1 edge `1 → 0`, taking `s = 0`, `t = 1`.  No flow can
be pushed from `0` to `1`, but the final accounting loop of
`max_flow` adds `1 - 0` for the zero-capacity residual back edge
`0 → 1`. -/
def flowCEx : Graph := ⟨[0, 1], [(0, ⟨[], []⟩), (1, ⟨[0], [(0, 1)]⟩)]⟩

/-- Claim C2 fails on the code: on `flowCEx` (all capacities
non-negative, preconditions satisfied) `max_flow` returns `1`,
while the maximum achievable flow value from `0` to `1` is `0`; `1`
is also not "original capacity minus remaining residual capacity
summed over the edges out of the residual copy of `s`", which is `0`
here. -/
theorem max_flow_wrong_value :
    max_flow (some 0) (some 1) flowCEx = .ok (some (1, flowCEx)) ∧
    SpecMaxFlowValue flowCEx 0 1 0 := by
  have hz : ∀ (l : List VId) (g : VId → Int), (∀ x ∈ l, g x = 0) → (l.map g).sum = 0 := by
    intro l g hg
    apply List.sum_eq_zero
    intro x hx
    rcases List.mem_map.mp hx with ⟨a, ha, rfl⟩
    exact hg a ha
  refine ⟨by decide, ⟨⟨fun _ _ => 0, ⟨fun u v => le_refl 0, fun u v => ?_, fun v hv hs ht => ?_⟩, ?_⟩, ?_⟩⟩
  · by_cases hv : v ∈ flowCEx.neighsOf u
    · by_cases h0 : u = 0
      · subst h0
        simp [flowCEx, Graph.neighsOf, Graph.getVtx, alook] at hv
      · by_cases h1 : u = 1
        · subst h1
          simp [flowCEx, Graph.neighsOf, Graph.getVtx, alook] at hv
          subst hv
          simp [flowCEx, Graph.neighsOf, Graph.getVtx, Graph.wread, Graph.wfind, alook]
        · simp [flowCEx, Graph.neighsOf, Graph.getVtx, alook, h0, h1] at hv
    · simp [hv]
  · unfold outFlow inFlow
    rw [hz _ _ (fun x _ => rfl), hz _ _ (fun x _ => rfl)]
  · unfold flowValue outFlow inFlow
    rw [hz _ _ (fun x _ => rfl), hz _ _ (fun x _ => rfl)]
    rfl
  · intro f hf
    have hout : outFlow flowCEx f 0 = 0 := by
      simp [outFlow, flowCEx, Graph.neighsOf, Graph.getVtx, alook]
    have hin : inFlow flowCEx f 0 = f 1 0 := by
      simp [inFlow, flowCEx, Graph.neighsOf, Graph.getVtx, alook, List.filter]
    have hnn := hf.nonneg 1 0
    simp [flowValue, hout, hin]
    omega

/-! ## `max_flow` does not mutate its input (claim C7) -/

theorem wreadIns_of_isSome {G : Graph} {v n : VId} (h : (G.wfind v n).isSome) :
    (G.wreadIns v n).2 = G := by
  unfold Graph.wreadIns
  cases hf : G.wfind v n with
  | some w => rfl
  | none => rw [hf] at h; simp at h

/-- The only channel through which `max_flow` could touch the
caller's vertices is the `vp->weights[np]` read during residual
construction (`operator[]` default-inserts on a miss); the entry
check that precedes it rules the miss out, so the caller's graph
comes back unchanged. -/
theorem buildResidual_preserves (G : Graph) (hwc : weightsComplete G = true) :
    (buildResidual G).2 = G := by
  have hwc' : ∀ v ∈ G.verts, ∀ n ∈ G.neighsOf v, (G.wfind v n).isSome := by
    intro v hv n hn
    have h1 := List.all_eq_true.mp hwc v hv
    exact List.all_eq_true.mp h1 n hn
  unfold buildResidual
  have inner : ∀ (vp : VId), vp ∈ G.verts → ∀ (ns : List VId),
      (∀ np ∈ ns, np ∈ G.neighsOf vp) → ∀ (res : Graph),
      (ns.foldl (fun acc np =>
        ((acc.1.insNeigh vp np).wstore vp np (acc.2.wreadIns vp np).1,
          (acc.2.wreadIns vp np).2)) (res, G)).2 = G := by
    intro vp hvp ns
    induction ns with
    | nil => intro _ res; rfl
    | cons np rest ih =>
      intro hns res
      have hsome := hwc' vp hvp np (hns np (List.mem_cons_self np rest))
      have hkeep : (G.wreadIns vp np).2 = G := wreadIns_of_isSome hsome
      simp only [List.foldl_cons, hkeep]
      exact ih (fun m hm => hns m (List.mem_cons_of_mem _ hm)) _
  have outer : ∀ (vs : List VId), (∀ v ∈ vs, v ∈ G.verts) → ∀ (res : Graph),
      (vs.foldl (fun acc vp =>
        (G.neighsOf vp).foldl (fun acc np =>
          ((acc.1.insNeigh vp np).wstore vp np (acc.2.wreadIns vp np).1,
            (acc.2.wreadIns vp np).2)) acc) (res, G)).2 = G := by
    intro vs
    induction vs with
    | nil => intro _ res; rfl
    | cons vp rest ih =>
      intro hvs res
      simp only [List.foldl_cons]
      have hv := hvs vp (List.mem_cons_self vp rest)
      have h1 := inner vp hv (G.neighsOf vp) (fun _ h => h) res
      -- the inner fold keeps the second component G; rewrite the accumulator
      have hsplit : (G.neighsOf vp).foldl (fun acc np =>
          ((acc.1.insNeigh vp np).wstore vp np (acc.2.wreadIns vp np).1,
            (acc.2.wreadIns vp np).2)) (res, G)
          = (((G.neighsOf vp).foldl (fun acc np =>
          ((acc.1.insNeigh vp np).wstore vp np (acc.2.wreadIns vp np).1,
            (acc.2.wreadIns vp np).2)) (res, G)).1, G) :=
        (Prod.mk.eta).symm.trans (by rw [h1])
      rw [hsplit]
      exact ih (fun m hm => hvs m (List.mem_cons_of_mem _ hm)) _
  have h2 := outer G.verts (fun _ h => h) ⟨G.verts, G.verts.map (fun v => (v, ⟨[], []⟩))⟩
  simpa using h2

/-- Unfolding of `max_flow` once the entry checks have passed. -/
theorem max_flow_checked (sv tv : VId) (G : Graph)
    (hmem : sv ∈ G.verts ∧ tv ∈ G.verts) (hwc : weightsComplete G = true) :
    max_flow (some sv) (some tv) G =
      match ekLoop sv tv (ekFuel (buildResidual G).1 sv) (buildResidual G).1 with
      | .error e => .error e
      | .ok none => .ok none
      | .ok (some resF) =>
          .ok (some (((resF.neighsOf sv).map (fun n => 1 - resF.wread sv n)).sum,
            (buildResidual G).2)) := by
  show (if sv ∈ G.verts ∧ tv ∈ G.verts then
      if weightsComplete G = true then
        let b := buildResidual G
        match ekLoop sv tv (ekFuel b.1 sv) b.1 with
        | Except.error e => Except.error e
        | Except.ok none => Except.ok none
        | Except.ok (some resF) =>
            Except.ok (some ((List.map (fun n => 1 - resF.wread sv n) (resF.neighsOf sv)).sum, b.2))
      else Except.error ()
    else Except.error ()) = _
  rw [if_pos hmem, if_pos hwc]

/-- Claim C7: when `max_flow` returns, the caller's vertex set comes
back exactly as it went in, and a second call on it returns the same
value again. -/
theorem max_flow_no_mutation (s t : Option VId) (G : Graph) (v : Int) (G' : Graph)
    (h : max_flow s t G = .ok (some (v, G'))) :
    G' = G ∧ max_flow s t G' = .ok (some (v, G')) := by
  match s, t with
  | none, _ => simp [max_flow] at h
  | some sv, none => simp [max_flow] at h
  | some sv, some tv =>
    by_cases hmem : sv ∈ G.verts ∧ tv ∈ G.verts
    case neg =>
      rw [show max_flow (some sv) (some tv) G = if sv ∈ G.verts ∧ tv ∈ G.verts then
          (if weightsComplete G = true then
            let b := buildResidual G
            match ekLoop sv tv (ekFuel b.1 sv) b.1 with
            | Except.error e => Except.error e
            | Except.ok none => Except.ok none
            | Except.ok (some resF) =>
                Except.ok (some ((List.map (fun n => 1 - resF.wread sv n) (resF.neighsOf sv)).sum, b.2))
          else Except.error ())
        else Except.error () from rfl, if_neg hmem] at h
      cases h
    by_cases hwc : weightsComplete G = true
    case neg =>
      rw [show max_flow (some sv) (some tv) G = if sv ∈ G.verts ∧ tv ∈ G.verts then
          (if weightsComplete G = true then
            let b := buildResidual G
            match ekLoop sv tv (ekFuel b.1 sv) b.1 with
            | Except.error e => Except.error e
            | Except.ok none => Except.ok none
            | Except.ok (some resF) =>
                Except.ok (some ((List.map (fun n => 1 - resF.wread sv n) (resF.neighsOf sv)).sum, b.2))
          else Except.error ())
        else Except.error () from rfl, if_pos hmem, if_neg hwc] at h
      cases h
    rw [max_flow_checked sv tv G hmem hwc] at h
    have hpres : (buildResidual G).2 = G := buildResidual_preserves G hwc
    cases hek : ekLoop sv tv (ekFuel (buildResidual G).1 sv) (buildResidual G).1 with
    | error e => rw [hek] at h; cases h
    | ok o =>
      cases o with
      | none => rw [hek] at h; cases h
      | some resF =>
        rw [hek] at h
        rw [hpres] at h
        have hv : ((resF.neighsOf sv).map (fun n => 1 - resF.wread sv n)).sum = v ∧ G = G' := by
          have := h
          injection this with h1
          injection h1 with h2
          exact ⟨congrArg Prod.fst h2, congrArg Prod.snd h2⟩
        obtain ⟨hv1, hv2⟩ := hv
        subst hv2
        refine ⟨rfl, ?_⟩
        rw [max_flow_checked sv tv G hmem hwc, hek, hpres]
        exact h

/-- `max_flow_no_mutation` instantiated on a concrete two-vertex
graph with one unit edge `0 → 1`. -/
theorem max_flow_no_mutation_witness :
    (⟨[0, 1], [(0, ⟨[1], [(1, 1)]⟩), (1, ⟨[], []⟩)]⟩ : Graph)
        = (⟨[0, 1], [(0, ⟨[1], [(1, 1)]⟩), (1, ⟨[], []⟩)]⟩ : Graph) ∧
    max_flow (some 0) (some 1) (⟨[0, 1], [(0, ⟨[1], [(1, 1)]⟩), (1, ⟨[], []⟩)]⟩ : Graph)
        = .ok (some (1, (⟨[0, 1], [(0, ⟨[1], [(1, 1)]⟩), (1, ⟨[], []⟩)]⟩ : Graph))) :=
  max_flow_no_mutation (some 0) (some 1) _ 1 _ (by decide)

/-! ## Paths and edges -/

/-- The edges the BFS traverses: an adjacency edge whose current
capacity is nonzero (`weights[nei] == 0` is skipped, anything else is
followed). -/
def edgeNz (G : Graph) (u v : VId) : Prop :=
  v ∈ G.neighsOf u ∧ G.wread u v ≠ 0

/-- An edge of strictly positive capacity (the specification's notion
of a usable edge). -/
def edgePos (G : Graph) (u v : VId) : Prop :=
  v ∈ G.neighsOf u ∧ 0 < G.wread u v

/-- `p` is a path from `s` to `t` whose consecutive vertices are
joined by `E`-edges. -/
def IsPath (E : VId → VId → Prop) (s t : VId) (p : List VId) : Prop :=
  ∃ rest, p = s :: rest ∧ List.Chain E s rest ∧ (s :: rest).getLast? = some t

/-- `t` is reachable from `s` through strictly positive capacity
edges. -/
def PosReach (G : Graph) (s t : VId) : Prop :=
  ∃ p, IsPath (edgePos G) s t p

theorem isPath_single (E : VId → VId → Prop) (s : VId) : IsPath E s s [s] :=
  ⟨[], rfl, List.Chain.nil, rfl⟩

theorem chain_snoc (E : VId → VId → Prop) :
    ∀ (rest : List VId) (s u v : VId), List.Chain E s rest →
      (s :: rest).getLast? = some u → E u v → List.Chain E s (rest ++ [v])
  | [], s, u, v, _, hlast, he => by
      simp at hlast
      subst hlast
      exact List.Chain.cons he List.Chain.nil
  | a :: rest, s, u, v, hchain, hlast, he => by
      cases hchain with
      | cons hsa htail =>
        have hl : (a :: rest).getLast? = some u := by simpa using hlast
        exact List.Chain.cons hsa (chain_snoc E rest a u v htail hl he)

theorem isPath_snoc {E : VId → VId → Prop} {s u v : VId} {p : List VId}
    (hp : IsPath E s u p) (he : E u v) : IsPath E s v (p ++ [v]) := by
  obtain ⟨rest, hrest, hchain, hlast⟩ := hp
  subst hrest
  refine ⟨rest ++ [v], by simp, chain_snoc E rest s u v hchain hlast he, ?_⟩
  rw [show s :: (rest ++ [v]) = (s :: rest) ++ [v] from rfl]
  exact List.getLast?_concat _

theorem isPath_nonempty {E : VId → VId → Prop} {s t : VId} {p : List VId}
    (hp : IsPath E s t p) : p ≠ [] := by
  obtain ⟨rest, hrest, _, _⟩ := hp
  simp [hrest]

theorem isPath_head {E : VId → VId → Prop} {s t : VId} {p : List VId}
    (hp : IsPath E s t p) : p.head? = some s := by
  obtain ⟨rest, hrest, _, _⟩ := hp
  simp [hrest]

theorem isPath_last {E : VId → VId → Prop} {s t : VId} {p : List VId}
    (hp : IsPath E s t p) : p.getLast? = some t := by
  obtain ⟨rest, hrest, _, hl⟩ := hp
  rw [hrest]
  exact hl

/-! ## Lemmas about weight stores -/

theorem getVtx_wstore_self (G : Graph) (v n : VId) (x : Int) :
    (G.wstore v n x).getVtx v = { G.getVtx v with weights := aset (G.getVtx v).weights n x } := by
  unfold Graph.wstore Graph.getVtx
  simp [alook_aset_self]

theorem getVtx_wstore_other (G : Graph) (v n : VId) (x : Int) (u : VId) (h : u ≠ v) :
    (G.wstore v n x).getVtx u = G.getVtx u := by
  unfold Graph.wstore Graph.getVtx
  simp [alook_aset_other _ _ _ _ h]

theorem neighsOf_wstore (G : Graph) (v n : VId) (x : Int) (u : VId) :
    (G.wstore v n x).neighsOf u = G.neighsOf u := by
  unfold Graph.neighsOf
  by_cases h : u = v
  · subst h; rw [getVtx_wstore_self]
  · rw [getVtx_wstore_other _ _ _ _ _ h]

theorem wfind_wstore_self (G : Graph) (v n : VId) (x : Int) :
    (G.wstore v n x).wfind v n = some x := by
  unfold Graph.wfind
  rw [getVtx_wstore_self]
  exact alook_aset_self _ _ _

theorem wfind_wstore_other (G : Graph) (v n : VId) (x : Int) (u m : VId)
    (h : ¬(u = v ∧ m = n)) : (G.wstore v n x).wfind u m = G.wfind u m := by
  unfold Graph.wfind
  by_cases hu : u = v
  · subst hu
    have hm : m ≠ n := fun hc => h ⟨rfl, hc⟩
    rw [getVtx_wstore_self]
    exact alook_aset_other _ _ _ _ hm
  · rw [getVtx_wstore_other _ _ _ _ _ hu]

theorem wread_wstore_self (G : Graph) (v n : VId) (x : Int) :
    (G.wstore v n x).wread v n = x := by
  unfold Graph.wread
  rw [wfind_wstore_self]
  rfl

theorem wread_wstore_other (G : Graph) (v n : VId) (x : Int) (u m : VId)
    (h : ¬(u = v ∧ m = n)) : (G.wstore v n x).wread u m = G.wread u m := by
  unfold Graph.wread
  rw [wfind_wstore_other _ _ _ _ _ _ h]

theorem verts_wstore (G : Graph) (v n : VId) (x : Int) :
    (G.wstore v n x).verts = G.verts := rfl

theorem wmodify_wread_self (G : Graph) (v n : VId) (f : Int → Int) :
    (G.wmodify v n f).wread v n = f (G.wread v n) :=
  wread_wstore_self _ _ _ _

theorem wmodify_wread_other (G : Graph) (v n : VId) (f : Int → Int) (u m : VId)
    (h : ¬(u = v ∧ m = n)) : (G.wmodify v n f).wread u m = G.wread u m :=
  wread_wstore_other _ _ _ _ _ _ h

theorem neighsOf_wmodify (G : Graph) (v n : VId) (f : Int → Int) (u : VId) :
    (G.wmodify v n f).neighsOf u = G.neighsOf u :=
  neighsOf_wstore _ _ _ _ _

theorem verts_wmodify (G : Graph) (v n : VId) (f : Int → Int) :
    (G.wmodify v n f).verts = G.verts := rfl

/-! ## BFS loop invariants

`lev` is a ghost level assignment: the BFS depth at which each
reached vertex was discovered. -/

/-- Invariant of the BFS while-loop between iterations. -/
structure BfsInv (G : Graph) (s : VId) (lev : VId → Nat) (st : BfsSt) : Prop where
  hsR : s ∈ st.R
  hlevs : lev s = 0
  hQR : ∀ v ∈ st.Q, v ∈ st.R
  hQnd : st.Q.Nodup
  hprev : ∀ v ∈ st.R, v ≠ s →
    ∃ u, alook st.prev v = some u ∧ u ∈ st.R ∧ edgeNz G u v ∧ lev v = lev u + 1
  hkeys : ∀ v : VId, (alook st.prev v).isSome = true ↔ (v ∈ st.R ∧ v ≠ s)
  hlevle : ∀ v ∈ st.R, lev v ≤ st.prev.length
  hsort : st.Q.Pairwise (fun a b => lev a ≤ lev b)
  hspan : ∀ a ∈ st.Q, ∀ b ∈ st.Q, lev b ≤ lev a + 1
  hfin : ∀ v ∈ st.R, v ∉ st.Q → ∀ q ∈ st.Q, lev v ≤ lev q
  hcls : ∀ v ∈ st.R, v ∉ st.Q → ∀ n, edgeNz G v n → n ∈ st.R ∧ lev n ≤ lev v + 1

/-- Invariant while the neighbours of the dequeued vertex `c` are
processed; `R0` is the reached set at dequeue time. -/
structure MidInv (G : Graph) (s c : VId) (R0 : List VId) (lev : VId → Nat) (st : BfsSt) : Prop where
  hsR : s ∈ st.R
  hlevs : lev s = 0
  hQR : ∀ v ∈ st.Q, v ∈ st.R
  hQnd : st.Q.Nodup
  hprev : ∀ v ∈ st.R, v ≠ s →
    ∃ u, alook st.prev v = some u ∧ u ∈ st.R ∧ edgeNz G u v ∧ lev v = lev u + 1
  hkeys : ∀ v : VId, (alook st.prev v).isSome = true ↔ (v ∈ st.R ∧ v ≠ s)
  hlevle : ∀ v ∈ st.R, lev v ≤ st.prev.length
  hcR : c ∈ st.R
  hcQ : c ∉ st.Q
  hA : ∀ q ∈ st.Q, lev c ≤ lev q ∧ lev q ≤ lev c + 1
  hB : st.Q.Pairwise (fun a b => lev a ≤ lev b)
  hC : ∀ v ∈ st.R, v ∉ st.Q → lev v ≤ lev c
  hD : ∀ v ∈ st.R, v ∉ st.Q → v ≠ c → ∀ n, edgeNz G v n → n ∈ st.R ∧ lev n ≤ lev v + 1
  hF : ∀ v ∈ st.R, v ∈ R0 ∨ v ∈ st.Q

theorem relax_mid (G : Graph) (s c : VId) (R0 : List VId) (lev : VId → Nat)
    (st : BfsSt) (n : VId) (hn : n ∈ G.neighsOf c)
    (hM : MidInv G s c R0 lev st) :
    ∃ lev', (∀ v ∈ st.R, lev' v = lev v) ∧ lev' c = lev c ∧
      MidInv G s c R0 lev' (relax G c n st) ∧
      (∀ v ∈ st.R, v ∈ (relax G c n st).R) ∧
      (G.wread c n ≠ 0 → n ∈ (relax G c n st).R ∧ lev' n ≤ lev c + 1) := by
  have hrelax : relax G c n st =
      if G.wread c n = 0 then st
      else if n ∈ st.R then st
      else ⟨st.Q ++ [n], n :: st.R, (n, c) :: st.prev⟩ := rfl
  by_cases h0 : G.wread c n = 0
  · rw [hrelax, if_pos h0]
    exact ⟨lev, fun _ _ => rfl, rfl, hM, fun _ hv => hv, fun hc => absurd h0 hc⟩
  · by_cases hR : n ∈ st.R
    · rw [hrelax, if_neg h0, if_pos hR]
      refine ⟨lev, fun _ _ => rfl, rfl, hM, fun _ hv => hv, fun _ => ⟨hR, ?_⟩⟩
      by_cases hQ : n ∈ st.Q
      · exact (hM.hA n hQ).2
      · exact Nat.le_succ_of_le (hM.hC n hR hQ)
    · rw [hrelax, if_neg h0, if_neg hR]
      have hns : n ≠ s := fun hc => hR (hc ▸ hM.hsR)
      have hnc : n ≠ c := fun hc => hR (hc ▸ hM.hcR)
      have hnQ : n ∉ st.Q := fun hc => hR (hM.hQR n hc)
      refine ⟨fun x => if x = n then lev c + 1 else lev x, ?_, ?_, ?_, ?_, ?_⟩
      · intro v hv
        have : v ≠ n := fun hc => hR (hc ▸ hv)
        simp [this]
      · simp [hnc.symm]
      · refine ⟨?_, ?_, ?_, ?_, ?_, ?_, ?_, ?_, ?_, ?_, ?_, ?_, ?_, ?_⟩
        · exact List.mem_cons_of_mem _ hM.hsR
        · simp [Ne.symm hns, hM.hlevs]
        ·
          intro v hv
          rcases List.mem_append.mp hv with h | h
          · exact List.mem_cons_of_mem _ (hM.hQR v h)
          · simp at h
            simp [h]
        ·
          rw [List.nodup_append]
          exact ⟨hM.hQnd, List.nodup_singleton n, by
            intro a ha hb
            simp at hb
            subst hb
            exact hnQ ha⟩
        ·
          intro v hv hvs
          rcases List.mem_cons.mp hv with h | h
          · subst h
            refine ⟨c, ?_, List.mem_cons_of_mem _ hM.hcR, ⟨hn, h0⟩, ?_⟩
            · simp [alook]
            · simp [hnc.symm]
          · have hvn : v ≠ n := fun hc => hR (hc ▸ h)
            obtain ⟨u, hu1, hu2, hu3, hu4⟩ := hM.hprev v h hvs
            have hun : u ≠ n := fun hc => hR (hc ▸ hu2)
            refine ⟨u, ?_, List.mem_cons_of_mem _ hu2, hu3, ?_⟩
            · simp [alook, hvn, hu1]
            · simp [hvn, hun, hu4]
        ·
          intro v
          by_cases hvn : v = n
          · subst hvn
            simp [alook, hns]
          · rw [show alook ((n, c) :: st.prev) v = alook st.prev v by simp [alook, hvn]]
            rw [hM.hkeys v]
            constructor
            · rintro ⟨h1, h2⟩
              exact ⟨List.mem_cons_of_mem _ h1, h2⟩
            · rintro ⟨h1, h2⟩
              rcases List.mem_cons.mp h1 with h | h
              · exact absurd h hvn
              · exact ⟨h, h2⟩
        ·
          intro v hv
          rcases List.mem_cons.mp hv with h | h
          · subst h
            simp only [if_pos rfl, List.length_cons]
            exact Nat.succ_le_succ (hM.hlevle c hM.hcR)
          · have hvn : v ≠ n := fun hc => hR (hc ▸ h)
            simp only [hvn, if_false, List.length_cons]
            exact Nat.le_succ_of_le (hM.hlevle v h)
        · exact List.mem_cons_of_mem _ hM.hcR
        ·
          intro hc
          rcases List.mem_append.mp hc with h | h
          · exact hM.hcQ h
          · simp at h
            exact hnc h.symm
        ·
          intro q hq
          rcases List.mem_append.mp hq with h | h
          · have hqn : q ≠ n := fun hc => hR (hc ▸ hM.hQR q h)
            have := hM.hA q h
            simp [hqn, hnc.symm]
            omega
          · simp at h
            subst h
            simp [hnc.symm]
        ·
          rw [List.pairwise_append]
          refine ⟨?_, List.pairwise_singleton _ _, ?_⟩
          · refine hM.hB.imp_of_mem ?_
            intro a b ha hb hab
            have han : a ≠ n := fun hc => hR (hc ▸ hM.hQR a ha)
            have hbn : b ≠ n := fun hc => hR (hc ▸ hM.hQR b hb)
            simpa [han, hbn] using hab
          · intro a ha b hb
            have hb' : b = n := by simpa using hb
            have han : a ≠ n := fun hc => hR (hc ▸ hM.hQR a ha)
            simp only [hb', han, if_false, if_pos rfl]
            exact (hM.hA a ha).2
        ·
          intro v hv hvq
          rcases List.mem_cons.mp hv with h | h
          · subst h
            exact absurd (List.mem_append.mpr (Or.inr (by simp))) hvq
          · have hvn : v ≠ n := fun hc => hR (hc ▸ h)
            have hvq' : v ∉ st.Q := fun hc => hvq (List.mem_append.mpr (Or.inl hc))
            simp [hvn, hnc.symm]
            exact hM.hC v h hvq'
        ·
          intro v hv hvq hvc m hm
          rcases List.mem_cons.mp hv with h | h
          · subst h
            exact absurd (List.mem_append.mpr (Or.inr (by simp))) hvq
          · have hvn : v ≠ n := fun hc => hR (hc ▸ h)
            have hvq' : v ∉ st.Q := fun hc => hvq (List.mem_append.mpr (Or.inl hc))
            have hm' : edgeNz G v m := by
              obtain ⟨hm1, hm2⟩ := hm
              exact ⟨hm1, hm2⟩
            obtain ⟨h1, h2⟩ := hM.hD v h hvq' hvc m hm'
            have hmn : m ≠ n := fun hc => hR (hc ▸ h1)
            refine ⟨List.mem_cons_of_mem _ h1, ?_⟩
            simp [hmn, hvn]
            exact h2
        ·
          intro v hv
          rcases List.mem_cons.mp hv with h | h
          · subst h
            exact Or.inr (List.mem_append.mpr (Or.inr (by simp)))
          · rcases hM.hF v h with h' | h'
            · exact Or.inl h'
            · exact Or.inr (List.mem_append.mpr (Or.inl h'))
      · intro v hv
        exact List.mem_cons_of_mem _ hv
      · intro _
        exact ⟨List.mem_cons_self _ _, by simp⟩

theorem relaxFold_mid (G : Graph) (s c : VId) (R0 : List VId) :
    ∀ (ns : List VId), (∀ n ∈ ns, n ∈ G.neighsOf c) →
    ∀ (st : BfsSt) (lev : VId → Nat), MidInv G s c R0 lev st →
    ∃ lev', (∀ v ∈ st.R, lev' v = lev v) ∧ lev' c = lev c ∧
      MidInv G s c R0 lev' (ns.foldl (fun a n => relax G c n a) st) ∧
      (∀ v ∈ st.R, v ∈ (ns.foldl (fun a n => relax G c n a) st).R) ∧
      (∀ n ∈ ns, G.wread c n ≠ 0 →
        n ∈ (ns.foldl (fun a n => relax G c n a) st).R ∧ lev' n ≤ lev c + 1) := by
  intro ns
  induction ns with
  | nil =>
    intro _ st lev hM
    exact ⟨lev, fun _ _ => rfl, rfl, hM, fun _ hv => hv, by simp⟩
  | cons n rest ih =>
    intro hns st lev hM
    obtain ⟨lev1, heq1, hc1, hM1, hmono1, hn1⟩ :=
      relax_mid G s c R0 lev st n (hns n (List.mem_cons_self n rest)) hM
    obtain ⟨lev2, heq2, hc2, hM2, hmono2, hn2⟩ :=
      ih (fun m hm => hns m (List.mem_cons_of_mem _ hm)) (relax G c n st) lev1 hM1
    refine ⟨lev2, ?_, ?_, ?_, ?_, ?_⟩
    · intro v hv
      rw [heq2 v (hmono1 v hv), heq1 v hv]
    · rw [hc2, hc1]
    · simpa using hM2
    · intro v hv
      simpa using hmono2 v (hmono1 v hv)
    · intro m hm hw
      rcases List.mem_cons.mp hm with h | h
      · subst h
        obtain ⟨hin, hle⟩ := hn1 hw
        refine ⟨by simpa using hmono2 m hin, ?_⟩
        rw [heq2 m hin]
        exact hle
      · obtain ⟨hin, hle⟩ := hn2 m h hw
        refine ⟨by simpa using hin, ?_⟩
        rw [hc1] at hle
        exact hle

theorem expand_preserves (G : Graph) (s : VId) (lev : VId → Nat)
    (c : VId) (Q' R : List VId) (prev : List (VId × VId))
    (hInv : BfsInv G s lev ⟨c :: Q', R, prev⟩) :
    ∃ lev', (∀ v ∈ R, lev' v = lev v) ∧
      BfsInv G s lev' (expand G c ⟨Q', R, prev⟩) ∧
      (∀ v ∈ R, v ∈ (expand G c ⟨Q', R, prev⟩).R) := by
  have hcR : c ∈ R := hInv.hQR c (List.mem_cons_self c Q')
  have hcQ : c ∉ Q' := (List.nodup_cons.mp hInv.hQnd).1
  have hMid : MidInv G s c R lev ⟨Q', R, prev⟩ := by
    refine ⟨hInv.hsR, hInv.hlevs, ?_, (List.nodup_cons.mp hInv.hQnd).2,
      hInv.hprev, hInv.hkeys, hInv.hlevle, hcR, hcQ, ?_, ?_, ?_, ?_, ?_⟩
    · intro v hv
      exact hInv.hQR v (List.mem_cons_of_mem _ hv)
    · intro q hq
      constructor
      · exact List.rel_of_pairwise_cons hInv.hsort hq
      · exact hInv.hspan c (List.mem_cons_self c Q') q (List.mem_cons_of_mem _ hq)
    · exact (List.pairwise_cons.mp hInv.hsort).2
    · intro v hv hvq
      by_cases hvc : v = c
      · subst hvc; exact le_refl _
      · have : v ∉ c :: Q' := by
          intro hc
          rcases List.mem_cons.mp hc with h | h
          · exact hvc h
          · exact hvq h
        exact hInv.hfin v hv this c (List.mem_cons_self c Q')
    · intro v hv hvq hvc m hm
      have : v ∉ c :: Q' := by
        intro hc
        rcases List.mem_cons.mp hc with h | h
        · exact hvc h
        · exact hvq h
      exact hInv.hcls v hv this m hm
    · intro v hv
      exact Or.inl hv
  obtain ⟨lev', heq, hc', hM', hmono, hproc⟩ :=
    relaxFold_mid G s c R (G.neighsOf c) (fun _ h => h) ⟨Q', R, prev⟩ lev hMid
  refine ⟨lev', heq, ?_, hmono⟩
  refine ⟨hM'.hsR, hM'.hlevs, hM'.hQR, hM'.hQnd, hM'.hprev, hM'.hkeys, hM'.hlevle,
    hM'.hB, ?_, ?_, ?_⟩
  · intro a ha b hb
    have h1 := (hM'.hA a ha).1
    have h2 := (hM'.hA b hb).2
    omega
  · intro v hv hvq q hq
    have h1 := hM'.hC v hv hvq
    have h2 := (hM'.hA q hq).1
    omega
  · intro v hv hvq m hm
    by_cases hvc : v = c
    · subst hvc
      obtain ⟨hm1, hm2⟩ := hm
      obtain ⟨hin, hle⟩ := hproc m hm1 hm2
      refine ⟨hin, ?_⟩
      rw [hc']
      exact hle
    · rcases hM'.hF v hv with h | h
      · exact hM'.hD v hv hvq hvc m hm
      · exact absurd h hvq

theorem bfsInv_init (G : Graph) (s : VId) :
    BfsInv G s (fun _ => 0) ⟨[s], [s], []⟩ := by
  refine ⟨List.mem_singleton_self s, rfl, ?_, List.nodup_singleton s, ?_, ?_, ?_, ?_, ?_, ?_, ?_⟩
  · intro v hv; exact hv
  · intro v hv hvs
    rcases List.mem_singleton.mp hv with rfl
    exact absurd rfl hvs
  · intro v
    simp [alook]
  · intro v _; exact Nat.zero_le _
  · exact List.pairwise_singleton _ _
  · intro a _ b _; omega
  · intro v hv hvq q hq
    exact le_refl _
  · intro v hv hvq
    exact absurd hv hvq

theorem bfsGo_inv (G : Graph) (s : VId) :
    ∀ (fuel : Nat) (st : BfsSt) (lev : VId → Nat), BfsInv G s lev st →
    ∃ lev', (∀ v ∈ st.R, lev' v = lev v) ∧
      BfsInv G s lev' (bfsGo G fuel st) ∧ (∀ v ∈ st.R, v ∈ (bfsGo G fuel st).R) := by
  intro fuel
  induction fuel with
  | zero =>
    intro st lev h
    exact ⟨lev, fun _ _ => rfl, h, fun _ hv => hv⟩
  | succ fuel ih =>
    intro st lev h
    obtain ⟨Q, R, prev⟩ := st
    cases hQ : Q with
    | nil =>
      subst hQ
      exact ⟨lev, fun _ _ => rfl, h, fun _ hv => hv⟩
    | cons c Q' =>
      subst hQ
      have hstep : bfsGo G (fuel + 1) ⟨c :: Q', R, prev⟩
          = bfsGo G fuel (expand G c ⟨Q', R, prev⟩) := rfl
      rw [hstep]
      obtain ⟨lev1, heq1, hInv1, hmono1⟩ := expand_preserves G s lev c Q' R prev h
      obtain ⟨lev2, heq2, hInv2, hmono2⟩ := ih (expand G c ⟨Q', R, prev⟩) lev1 hInv1
      refine ⟨lev2, ?_, hInv2, ?_⟩
      · intro v hv
        rw [heq2 v (hmono1 v hv), heq1 v hv]
      · intro v hv
        exact hmono2 v (hmono1 v hv)

/-- Path reconstruction: walking the predecessor links from any
reached vertex `v` yields (after reversal) a nonzero-capacity path
from `s` to `v` of exactly `lev v` edges, visiting reached vertices
of level at most `lev v`, without repetitions. -/
theorem walk_spec (G : Graph) (s : VId) (lev : VId → Nat) (st : BfsSt)
    (hInv : BfsInv G s lev st) :
    ∀ (k : Nat) (v : VId), v ∈ st.R → lev v = k → ∀ fuel, k ≤ fuel →
      IsPath (edgeNz G) s v (walkBack st.prev s fuel v).reverse ∧
      (walkBack st.prev s fuel v).length = k + 1 ∧
      (∀ x ∈ walkBack st.prev s fuel v, x ∈ st.R ∧ lev x ≤ k) ∧
      (walkBack st.prev s fuel v).Nodup := by
  intro k
  induction k using Nat.strong_induction_on with
  | _ k ih =>
    intro v hv hlv fuel hfuel
    by_cases hvs : v = s
    · subst hvs
      have hk0 : k = 0 := by rw [← hlv, hInv.hlevs]
      subst hk0
      have hw : walkBack st.prev v fuel v = [v] := by
        cases fuel with
        | zero => rfl
        | succ f => simp [walkBack]
      rw [hw]
      exact ⟨isPath_single _ _, rfl, fun x hx => by
        rcases List.mem_singleton.mp hx with rfl
        exact ⟨hv, by rw [hInv.hlevs]⟩, List.nodup_singleton _⟩
    · obtain ⟨u, hu1, hu2, hu3, hu4⟩ := hInv.hprev v hv hvs
      have hk : k = lev u + 1 := by rw [← hlv, hu4]
      cases fuel with
      | zero => omega
      | succ f =>
        have hw : walkBack st.prev s (f + 1) v = v :: walkBack st.prev s f u := by
          simp [walkBack, hvs, hu1]
        rw [hw]
        have hfu : lev u ≤ f := by omega
        obtain ⟨ihp, ihlen, ihmem, ihnd⟩ := ih (lev u) (by omega) u hu2 rfl f hfu
        refine ⟨?_, ?_, ?_, ?_⟩
        · rw [List.reverse_cons]
          exact isPath_snoc ihp hu3
        · simp [ihlen]
          omega
        · intro x hx
          rcases List.mem_cons.mp hx with rfl | hx'
          · exact ⟨hv, by omega⟩
          · obtain ⟨h1, h2⟩ := ihmem x hx'
            exact ⟨h1, by omega⟩
        · rw [List.nodup_cons]
          refine ⟨?_, ihnd⟩
          intro hc
          have := (ihmem v hc).2
          omega

/-- At the end of the BFS (empty queue) the reached set is closed
under nonzero-capacity edges, so every nonzero-capacity path from a
reached vertex stays reached, with levels growing by at most one per
edge. -/
theorem final_reach_bound (G : Graph) (s : VId) (lev : VId → Nat) (st : BfsSt)
    (hInv : BfsInv G s lev st) (hQ : st.Q = []) :
    ∀ (rest : List VId) (u v : VId), u ∈ st.R → List.Chain (edgeNz G) u rest →
      (u :: rest).getLast? = some v → v ∈ st.R ∧ lev v ≤ lev u + rest.length := by
  intro rest
  induction rest with
  | nil =>
    intro u v hu _ hlast
    simp at hlast
    subst hlast
    exact ⟨hu, le_refl _⟩
  | cons a rest ih =>
    intro u v hu hchain hlast
    cases hchain with
    | cons hua htail =>
      have hnotQ : u ∉ st.Q := by rw [hQ]; simp
      obtain ⟨haR, hlev⟩ := hInv.hcls u hu hnotQ a hua
      have hlast' : (a :: rest).getLast? = some v := by simpa using hlast
      obtain ⟨hvR, hlev2⟩ := ih a v haR htail hlast'
      refine ⟨hvR, ?_⟩
      simp only [List.length_cons]
      omega

/-- `augmenting_path` written out without the intermediate `match`
and `let`. -/
theorem augmenting_path_eq (sv tv : VId) (G : Graph) :
    augmenting_path (some sv) (some tv) G =
      (if sv ∈ G.verts ∧ tv ∈ G.verts then
        if weightsComplete G = true then
          if tv ∈ (bfsGo G (bfsMeasure G.ids ⟨[sv], [sv], []⟩ + 1) ⟨[sv], [sv], []⟩).R then
            Except.ok (true,
              (walkBack (bfsGo G (bfsMeasure G.ids ⟨[sv], [sv], []⟩ + 1) ⟨[sv], [sv], []⟩).prev sv
                (bfsGo G (bfsMeasure G.ids ⟨[sv], [sv], []⟩ + 1) ⟨[sv], [sv], []⟩).prev.length tv).reverse)
          else Except.ok (false, [])
        else Except.error ()
      else Except.error ()) := rfl

/-- Unfolding of `augmenting_path` once the entry checks have
passed. -/
theorem augmenting_path_checked (sv tv : VId) (G : Graph)
    (hmem : sv ∈ G.verts ∧ tv ∈ G.verts) (hwc : weightsComplete G = true) :
    augmenting_path (some sv) (some tv) G =
      (if tv ∈ (bfsGo G (bfsMeasure G.ids ⟨[sv], [sv], []⟩ + 1) ⟨[sv], [sv], []⟩).R then
        .ok (true, (walkBack (bfsGo G (bfsMeasure G.ids ⟨[sv], [sv], []⟩ + 1) ⟨[sv], [sv], []⟩).prev sv
          (bfsGo G (bfsMeasure G.ids ⟨[sv], [sv], []⟩ + 1) ⟨[sv], [sv], []⟩).prev.length tv).reverse)
      else .ok (false, [])) := by
  rw [augmenting_path_eq, if_pos hmem, if_pos hwc]

/-- The invariant, transported to the finished BFS run that
`augmenting_path` performs. -/
theorem bfs_run_spec (sv : VId) (G : Graph) (hsv : sv ∈ G.verts) :
    ∃ lev, BfsInv G sv lev (bfsGo G (bfsMeasure G.ids ⟨[sv], [sv], []⟩ + 1) ⟨[sv], [sv], []⟩) ∧
      (bfsGo G (bfsMeasure G.ids ⟨[sv], [sv], []⟩ + 1) ⟨[sv], [sv], []⟩).Q = [] := by
  obtain ⟨lev, _, hInv, _⟩ :=
    bfsGo_inv G sv (bfsMeasure G.ids ⟨[sv], [sv], []⟩ + 1) ⟨[sv], [sv], []⟩ (fun _ => 0)
      (bfsInv_init G sv)
  exact ⟨lev, hInv, bfsGo_empties_queue G _ _ (Nat.lt_succ_self _)⟩

/-- Whenever `augmenting_path` reports success, the produced vertex
sequence is a nonzero-capacity path from `s` to `t` without repeated
vertices. -/
theorem augmenting_path_true_spec (sv tv : VId) (G : Graph) (P : List VId)
    (h : augmenting_path (some sv) (some tv) G = .ok (true, P)) :
    IsPath (edgeNz G) sv tv P ∧ P.Nodup := by
  by_cases hmem : sv ∈ G.verts ∧ tv ∈ G.verts
  case neg =>
    rw [augmenting_path_eq, if_neg hmem] at h
    cases h
  by_cases hwc : weightsComplete G = true
  case neg =>
    rw [augmenting_path_eq, if_pos hmem, if_neg hwc] at h
    cases h
  rw [augmenting_path_checked sv tv G hmem hwc] at h
  obtain ⟨lev, hInv, hQnil⟩ := bfs_run_spec sv G hmem.1
  by_cases htv : tv ∈ (bfsGo G (bfsMeasure G.ids ⟨[sv], [sv], []⟩ + 1) ⟨[sv], [sv], []⟩).R
  · rw [if_pos htv] at h
    have hP : P = (walkBack (bfsGo G (bfsMeasure G.ids ⟨[sv], [sv], []⟩ + 1) ⟨[sv], [sv], []⟩).prev sv
        (bfsGo G (bfsMeasure G.ids ⟨[sv], [sv], []⟩ + 1) ⟨[sv], [sv], []⟩).prev.length tv).reverse := by
      injection h with h1
      injection h1 with _ h2
      exact h2.symm
    obtain ⟨hpath, _, _, hnd⟩ := walk_spec G sv lev _ hInv (lev tv) tv htv rfl _
      (hInv.hlevle tv htv)
    rw [hP]
    exact ⟨hpath, by simpa using hnd⟩
  · rw [if_neg htv] at h
    injection h with h1
    injection h1 with h2
    cases h2

/-! ## Shortest augmenting paths (claim C6) -/

theorem edgeNz_iff_pos (G : Graph) (hnn : ∀ v n, 0 ≤ G.wread v n) (u v : VId) :
    edgeNz G u v ↔ edgePos G u v := by
  unfold edgeNz edgePos
  constructor
  · rintro ⟨h1, h2⟩
    exact ⟨h1, lt_of_le_of_ne (hnn u v) (Ne.symm h2)⟩
  · rintro ⟨h1, h2⟩
    exact ⟨h1, ne_of_gt h2⟩

theorem isPath_imp {E E' : VId → VId → Prop} (himp : ∀ a b, E a b → E' a b)
    {s t : VId} {p : List VId} (hp : IsPath E s t p) : IsPath E' s t p := by
  obtain ⟨rest, h1, h2, h3⟩ := hp
  exact ⟨rest, h1, List.Chain.imp (fun a b h => himp a b h) h2, h3⟩

/-- Claim C6 (amended: all edge capacities non-negative, as assumed
by the flow engine): when `t` is reachable from `s` through strictly
positive capacity edges, `augmenting_path` succeeds with a
positive-capacity path from `s` to `t` of minimum length; when it is
not, `augmenting_path` reports `false` as a normal outcome. -/
theorem augmenting_path_correct (sv tv : VId) (G : Graph)
    (hmem : sv ∈ G.verts ∧ tv ∈ G.verts) (hwc : weightsComplete G = true)
    (hnn : ∀ v n, 0 ≤ G.wread v n) :
    (PosReach G sv tv →
      ∃ P, augmenting_path (some sv) (some tv) G = .ok (true, P) ∧
        IsPath (edgePos G) sv tv P ∧
        ∀ p, IsPath (edgePos G) sv tv p → P.length ≤ p.length) ∧
    (¬ PosReach G sv tv → augmenting_path (some sv) (some tv) G = .ok (false, [])) := by
  obtain ⟨lev, hInv, hQnil⟩ := bfs_run_spec sv G hmem.1
  set fin := bfsGo G (bfsMeasure G.ids ⟨[sv], [sv], []⟩ + 1) ⟨[sv], [sv], []⟩ with hfin
  have hreach_of_mem : ∀ t', t' ∈ fin.R → PosReach G sv t' := by
    intro t' ht'
    obtain ⟨hpath, _, _, _⟩ :=
      walk_spec G sv lev fin hInv (lev t') t' ht' rfl fin.prev.length (hInv.hlevle t' ht')
    exact ⟨_, isPath_imp (fun a b h => (edgeNz_iff_pos G hnn a b).mp h) hpath⟩
  have hmem_of_reach : ∀ t' p, IsPath (edgePos G) sv t' p →
      t' ∈ fin.R ∧ lev t' + 1 ≤ p.length := by
    intro t' p hp
    have hp' : IsPath (edgeNz G) sv t' p :=
      isPath_imp (fun a b h => (edgeNz_iff_pos G hnn a b).mpr h) hp
    obtain ⟨rest, hre, hchain, hlast⟩ := hp'
    obtain ⟨hmemR, hbound⟩ := final_reach_bound G sv lev fin hInv hQnil rest sv t'
      hInv.hsR hchain hlast
    rw [hInv.hlevs] at hbound
    refine ⟨hmemR, ?_⟩
    rw [hre]
    simp only [List.length_cons]
    omega
  constructor
  · intro hreach
    obtain ⟨p0, hp0⟩ := hreach
    obtain ⟨htvR, _⟩ := hmem_of_reach tv p0 hp0
    rw [augmenting_path_checked sv tv G hmem hwc, ← hfin, if_pos htvR]
    obtain ⟨hpath, hlen, _, _⟩ :=
      walk_spec G sv lev fin hInv (lev tv) tv htvR rfl fin.prev.length (hInv.hlevle tv htvR)
    refine ⟨_, rfl, isPath_imp (fun a b h => (edgeNz_iff_pos G hnn a b).mp h) hpath, ?_⟩
    intro p hp
    obtain ⟨_, hbound⟩ := hmem_of_reach tv p hp
    rw [List.length_reverse, hlen]
    omega
  · intro hnreach
    rw [augmenting_path_checked sv tv G hmem hwc, ← hfin]
    rw [if_neg (fun htvR => hnreach (hreach_of_mem tv htvR))]

/-- Counterexample graph for claim C6 as stated: the single edge
`0 → 1` has capacity `-1`. -/
def negCEx : Graph := ⟨[0, 1], [(0, ⟨[1], [(1, -1)]⟩), (1, ⟨[], []⟩)]⟩

/-- Claim C6 fails on the code as stated (without a non-negativity
assumption): on `negCEx` the target `1` is not reachable through
strictly positive capacity edges, yet the BFS — which skips only
capacity `0`, not negative capacities — returns `true` with the path
`[0, 1]`. -/
theorem augmenting_path_negative_capacity :
    augmenting_path (some 0) (some 1) negCEx = .ok (true, [0, 1]) ∧
    ¬ PosReach negCEx 0 1 := by
  constructor
  · decide
  · rintro ⟨p, rest, rfl, hchain, hlast⟩
    cases hchain with
    | nil => simp at hlast
    | cons hedge htail =>
      obtain ⟨hmem, hpos⟩ := hedge
      have ha := hmem
      simp [negCEx, Graph.neighsOf, Graph.getVtx, alook] at ha
      subst ha
      have hw : negCEx.wread 0 1 = -1 := by decide
      rw [hw] at hpos
      omega

/-- A graph on which every hypothesis of `augmenting_path_correct`
holds concretely: two vertices and the capacity-1 edge `0 → 1`. -/
def apGw : Graph := ⟨[0, 1], [(0, ⟨[1], [(1, 1)]⟩), (1, ⟨[], []⟩)]⟩

/-- Non-negativity of every `wread` follows from non-negativity of
the stored weights. -/
theorem wread_nonneg_of_stores (G : Graph)
    (h : ∀ p ∈ G.vtx, ∀ q ∈ p.2.weights, 0 ≤ q.2) : ∀ v n, 0 ≤ G.wread v n := by
  intro v n
  unfold Graph.wread Graph.wfind Graph.getVtx
  cases hv : alook G.vtx v with
  | none => simp [alook]
  | some d =>
    simp only [Option.getD_some]
    cases hw : alook d.weights n with
    | none => simp
    | some w =>
      simp only [Option.getD_some]
      exact h (v, d) (alook_mem hv) (n, w) (alook_mem hw)

/-- `augmenting_path_correct` instantiated on `apGw`. -/
theorem augmenting_path_correct_witness :
    ∃ P, augmenting_path (some 0) (some 1) apGw = .ok (true, P) ∧
      IsPath (edgePos apGw) 0 1 P ∧
      ∀ p, IsPath (edgePos apGw) 0 1 p → P.length ≤ p.length := by
  have hnn : ∀ v n, 0 ≤ apGw.wread v n := wread_nonneg_of_stores apGw (by decide)
  have hedge : edgePos apGw 0 1 := ⟨by decide, by decide⟩
  have hreach : PosReach apGw 0 1 :=
    ⟨[0, 1], [1], rfl, List.Chain.cons hedge List.Chain.nil, rfl⟩
  exact (augmenting_path_correct 0 1 apGw ⟨by decide, by decide⟩ (by decide) hnn).1 hreach

/-! ## The augmentation step (claim C9) -/

/-- The consecutive pairs of a vertex sequence — the edges the
augmentation updates. -/
def pairsOf : List VId → List (VId × VId)
  | a :: b :: rest => (a, b) :: pairsOf (b :: rest)
  | _ => []

theorem pairsOf_fst_mem : ∀ (l : List VId) (u v : VId), (u, v) ∈ pairsOf l → u ∈ l
  | [], _, _, h => by simp [pairsOf] at h
  | [_], _, _, h => by simp [pairsOf] at h
  | a :: b :: rest, u, v, h => by
      rcases List.mem_cons.mp h with h' | h'
      · rw [show u = a from congrArg Prod.fst h']
        exact List.mem_cons_self _ _
      · exact List.mem_cons_of_mem _ (pairsOf_fst_mem (b :: rest) u v h')

theorem pairsOf_snd_mem_tail : ∀ (l : List VId) (u v : VId), (u, v) ∈ pairsOf l → v ∈ l.tail
  | [], _, _, h => by simp [pairsOf] at h
  | [_], _, _, h => by simp [pairsOf] at h
  | a :: b :: rest, u, v, h => by
      rcases List.mem_cons.mp h with h' | h'
      · rw [show v = b from congrArg Prod.snd h']
        exact List.mem_cons_self _ _
      · exact List.mem_cons_of_mem _ (pairsOf_snd_mem_tail (b :: rest) u v h')

theorem pairsOf_edge {E : VId → VId → Prop} :
    ∀ (u : VId) (rest : List VId), List.Chain E u rest →
      ∀ a b, (a, b) ∈ pairsOf (u :: rest) → E a b
  | _, [], _, a, b, h => by simp [pairsOf] at h
  | u, c :: rest, hchain, a, b, h => by
      cases hchain with
      | cons huc htail =>
        rcases List.mem_cons.mp h with h' | h'
        · have h1 : a = u := congrArg Prod.fst h'
          have h2 : b = c := congrArg Prod.snd h'
          subst h1; subst h2
          exact huc
        · exact pairsOf_edge c rest htail a b h'

/-- The net effect of one augmentation on each weight: the capacity
of every consecutive path pair drops by one, the paired reverse
capacity rises by one, everything else is untouched.  Stated as one
formula; on a repetition-free path each pair occurs at most once and
never together with its reverse. -/
theorem augmentPath_wread :
    ∀ (P : List VId) (R : Graph) (a b : VId), P.Nodup →
      (augmentPath R P).wread a b
        = R.wread a b - (if (a, b) ∈ pairsOf P then 1 else 0)
          + (if (b, a) ∈ pairsOf P then 1 else 0)
  | [], R, a, b, _ => by simp [augmentPath, pairsOf]
  | [x], R, a, b, _ => by simp [augmentPath, pairsOf]
  | x :: y :: rest, R, a, b, hnd => by
      have hxy : x ≠ y := by
        intro hc
        subst hc
        exact (List.nodup_cons.mp hnd).1 (List.mem_cons_self _ _)
      have hxtail : x ∉ y :: rest := (List.nodup_cons.mp hnd).1
      rw [show augmentPath R (x :: y :: rest)
          = augmentPath ((R.wmodify x y (· - 1)).wmodify y x (· + 1)) (y :: rest) from rfl]
      rw [show pairsOf (x :: y :: rest) = (x, y) :: pairsOf (y :: rest) from rfl]
      rw [augmentPath_wread (y :: rest) _ a b (List.nodup_cons.mp hnd).2]
      by_cases hab : (a, b) = (x, y)
      · have ha : a = x := congrArg Prod.fst hab
        have hb : b = y := congrArg Prod.snd hab
        subst ha; subst hb
        have h1 : ((R.wmodify a b (· - 1)).wmodify b a (· + 1)).wread a b
            = R.wread a b - 1 := by
          rw [wmodify_wread_other _ _ _ _ _ _
            (show ¬(a = b ∧ b = a) from fun hc => hxy hc.1), wmodify_wread_self]
        have h2 : (a, b) ∉ pairsOf (b :: rest) := by
          intro hc
          exact hxtail (pairsOf_fst_mem _ _ _ hc)
        have h3 : (b, a) ∉ pairsOf (b :: rest) := by
          intro hc
          exact hxtail (List.mem_cons_of_mem _ (pairsOf_snd_mem_tail _ _ _ hc))
        have h4 : (b, a) ∉ ((a, b) :: pairsOf (b :: rest)) := by
          intro hc
          rcases List.mem_cons.mp hc with h' | h'
          · exact hxy (congrArg Prod.snd h')
          · exact h3 h'
        rw [h1, if_neg h2, if_neg h3, if_pos (List.mem_cons_self _ _), if_neg h4]
        omega
      · by_cases hba : (b, a) = (x, y)
        · have hb : b = x := congrArg Prod.fst hba
          have ha : a = y := congrArg Prod.snd hba
          subst ha; subst hb
          have h1 : ((R.wmodify b a (· - 1)).wmodify a b (· + 1)).wread a b
              = R.wread a b + 1 := by
            rw [wmodify_wread_self, wmodify_wread_other _ _ _ _ _ _
              (show ¬(a = b ∧ b = a) from fun hc => hxy hc.2)]
          have h2 : (a, b) ∉ pairsOf (a :: rest) := by
            intro hc
            exact hxtail (List.mem_cons_of_mem _ (pairsOf_snd_mem_tail _ _ _ hc))
          have h3 : (b, a) ∉ pairsOf (a :: rest) := by
            intro hc
            exact hxtail (pairsOf_fst_mem _ _ _ hc)
          have h4 : (a, b) ∉ ((b, a) :: pairsOf (a :: rest)) := by
            intro hc
            rcases List.mem_cons.mp hc with h' | h'
            · exact hxy (Prod.mk.inj h').2
            · exact h2 h'
          rw [h1, if_neg h2, if_neg h3, if_neg h4, if_pos (List.mem_cons_self _ _)]
          omega
        · have h1 : ((R.wmodify x y (· - 1)).wmodify y x (· + 1)).wread a b
              = R.wread a b := by
            rw [wmodify_wread_other _ _ _ _ _ _
                (show ¬(a = y ∧ b = x) from fun hc => hba (by rw [hc.1, hc.2])),
              wmodify_wread_other _ _ _ _ _ _
                (show ¬(a = x ∧ b = y) from fun hc => hab (by rw [hc.1, hc.2]))]
          rw [h1]
          simp only [List.mem_cons, hab, hba, false_or]

theorem augmentPath_neighsOf :
    ∀ (P : List VId) (R : Graph) (u : VId),
      (augmentPath R P).neighsOf u = R.neighsOf u
  | [], _, _ => rfl
  | [_], _, _ => rfl
  | x :: y :: rest, R, u => by
      rw [show augmentPath R (x :: y :: rest)
          = augmentPath ((R.wmodify x y (· - 1)).wmodify y x (· + 1)) (y :: rest) from rfl]
      rw [augmentPath_neighsOf (y :: rest) _ u, neighsOf_wmodify, neighsOf_wmodify]

theorem augmentPath_verts :
    ∀ (P : List VId) (R : Graph), (augmentPath R P).verts = R.verts
  | [], _ => rfl
  | [_], _ => rfl
  | x :: y :: rest, R => by
      rw [show augmentPath R (x :: y :: rest)
          = augmentPath ((R.wmodify x y (· - 1)).wmodify y x (· + 1)) (y :: rest) from rfl]
      rw [augmentPath_verts (y :: rest) _]
      rfl

theorem augmentPath_wfind_isSome :
    ∀ (P : List VId) (R : Graph) (u m : VId), (R.wfind u m).isSome = true →
      ((augmentPath R P).wfind u m).isSome = true
  | [], _, _, _, h => h
  | [_], _, _, _, h => h
  | x :: y :: rest, R, u, m, h => by
      rw [show augmentPath R (x :: y :: rest)
          = augmentPath ((R.wmodify x y (· - 1)).wmodify y x (· + 1)) (y :: rest) from rfl]
      apply augmentPath_wfind_isSome (y :: rest)
      unfold Graph.wmodify
      by_cases h1 : u = y ∧ m = x
      · rw [h1.1, h1.2, wfind_wstore_self]
        rfl
      · rw [wfind_wstore_other _ _ _ _ _ _ h1]
        by_cases h2 : u = x ∧ m = y
        · rw [h2.1, h2.2, wfind_wstore_self]
          rfl
        · rw [wfind_wstore_other _ _ _ _ _ _ h2]
          exact h

/-! ## Properties of the residual construction -/

/-- Weight-table completeness over the whole store (a strengthening
of `weightsComplete`, which checks only the vertices of `V`). -/
def WCall (G : Graph) : Prop :=
  ∀ v n, n ∈ G.neighsOf v → (G.wfind v n).isSome = true

theorem weightsComplete_of_WCall {G : Graph} (h : WCall G) :
    weightsComplete G = true := by
  unfold weightsComplete
  rw [List.all_eq_true]
  intro v _
  rw [List.all_eq_true]
  intro n hn
  exact h v n hn

theorem foldl_preserves {α β : Type} (P : α → Prop) (f : α → β → α)
    (hstep : ∀ a b, P a → P (f a b)) :
    ∀ (l : List β) (a : α), P a → P (l.foldl f a)
  | [], _, h => h
  | b :: rest, a, h => foldl_preserves P f hstep rest (f a b) (hstep a b h)

theorem insNeigh_eq (G : Graph) (u v : VId) :
    G.insNeigh u v = if v ∈ (G.getVtx u).neighs then G
      else { G with vtx := aset G.vtx u { G.getVtx u with neighs := (G.getVtx u).neighs ++ [v] } } := rfl

theorem verts_insNeigh (G : Graph) (u v : VId) : (G.insNeigh u v).verts = G.verts := by
  rw [insNeigh_eq]
  split <;> rfl

theorem getVtx_insNeigh_other (G : Graph) (u v w : VId) (h : w ≠ u) :
    (G.insNeigh u v).getVtx w = G.getVtx w := by
  rw [insNeigh_eq]
  split
  · rfl
  · show (alook (aset G.vtx u _) w).getD ⟨[], []⟩ = _
    rw [alook_aset_other _ _ _ _ h]
    rfl

theorem getVtx_insNeigh_self (G : Graph) (u v : VId) :
    (G.insNeigh u v).getVtx u =
      (if v ∈ (G.getVtx u).neighs then G.getVtx u
       else { G.getVtx u with neighs := (G.getVtx u).neighs ++ [v] }) := by
  by_cases hm : v ∈ (G.getVtx u).neighs
  · rw [insNeigh_eq, if_pos hm, if_pos hm]
  · rw [insNeigh_eq, if_neg hm, if_neg hm]
    show (alook (aset G.vtx u _) u).getD ⟨[], []⟩ = _
    rw [alook_aset_self]
    rfl

theorem wfind_insNeigh (G : Graph) (u v a b : VId) :
    (G.insNeigh u v).wfind a b = G.wfind a b := by
  unfold Graph.wfind
  by_cases hau : a = u
  · subst hau
    rw [getVtx_insNeigh_self]
    split <;> rfl
  · rw [getVtx_insNeigh_other _ _ _ _ hau]

theorem wread_insNeigh (G : Graph) (u v a b : VId) :
    (G.insNeigh u v).wread a b = G.wread a b := by
  unfold Graph.wread
  rw [wfind_insNeigh]

theorem mem_neighsOf_insNeigh {G : Graph} {u v a b : VId}
    (h : b ∈ (G.insNeigh u v).neighsOf a) : (a = u ∧ b = v) ∨ b ∈ G.neighsOf a := by
  by_cases hau : a = u
  · subst hau
    unfold Graph.neighsOf at h
    rw [getVtx_insNeigh_self] at h
    by_cases hm : v ∈ (G.getVtx a).neighs
    · rw [if_pos hm] at h
      exact Or.inr h
    · rw [if_neg hm] at h
      rcases List.mem_append.mp h with h' | h'
      · exact Or.inr h'
      · simp at h'
        exact Or.inl ⟨rfl, h'⟩
  · unfold Graph.neighsOf at h
    rw [getVtx_insNeigh_other _ _ _ _ hau] at h
    exact Or.inr h

theorem WCall_addEdge {g : Graph} (hW : WCall g) (u v : VId) (x : Int) :
    WCall ((g.insNeigh u v).wstore u v x) := by
  intro a b hb
  rw [show ((g.insNeigh u v).wstore u v x).neighsOf a = (g.insNeigh u v).neighsOf a from
    neighsOf_wstore _ _ _ _ _] at hb
  by_cases hab : a = u ∧ b = v
  · rw [hab.1, hab.2, wfind_wstore_self]
    rfl
  · rw [wfind_wstore_other _ _ _ _ _ _ hab, wfind_insNeigh]
    apply hW
    rcases mem_neighsOf_insNeigh hb with h | h
    · exact absurd h hab
    · exact h

theorem wreadIns_fst (g : Graph) (v n : VId) : (g.wreadIns v n).1 = g.wread v n := by
  cases hf : g.wfind v n with
  | some w => simp [Graph.wreadIns, Graph.wread, hf]
  | none => simp [Graph.wreadIns, Graph.wread, hf]

theorem wreadIns_snd_wread (g : Graph) (v n a b : VId) :
    ((g.wreadIns v n).2).wread a b = g.wread a b := by
  cases hf : g.wfind v n with
  | some w => simp [Graph.wreadIns, hf]
  | none =>
    simp only [Graph.wreadIns, hf]
    by_cases hab : a = v ∧ b = n
    · rw [hab.1, hab.2, wread_wstore_self]
      unfold Graph.wread
      rw [hf]
      rfl
    · rw [wread_wstore_other _ _ _ _ _ _ hab]

theorem alook_map_const (l : List VId) (c : Vtx) (k : VId) :
    alook (l.map (fun v => (v, c))) k = if k ∈ l then some c else none := by
  induction l with
  | nil => simp [alook]
  | cons a rest ih =>
    by_cases h : k = a
    · subst h
      simp [alook]
    · simp [alook, h, ih, List.mem_cons]

/-- The residual graph keeps the caller's vertex set, satisfies the
weight-table invariant at every vertex, and — when the input
capacities are non-negative — has only non-negative capacities. -/
theorem buildResidual_props (G : Graph) :
    (buildResidual G).1.verts = G.verts ∧
    WCall (buildResidual G).1 ∧
    ((∀ v n, 0 ≤ G.wread v n) → ∀ v n, 0 ≤ (buildResidual G).1.wread v n) := by
  unfold buildResidual
  set P2 : Graph × Graph → Prop := fun acc =>
    acc.1.verts = G.verts ∧ WCall acc.1 ∧
    (∀ a b, acc.2.wread a b = G.wread a b) ∧
    ((∀ v n, 0 ≤ G.wread v n) → ∀ a b, 0 ≤ acc.1.wread a b) with hP2
  have hstep2 : ∀ (acc : Graph × Graph) (vp : VId), P2 acc →
      ∀ (ns : List VId), P2 (ns.foldl (fun acc np =>
        ((acc.1.insNeigh vp np).wstore vp np (acc.2.wreadIns vp np).1,
          (acc.2.wreadIns vp np).2)) acc) := by
    intro acc vp hacc ns
    refine foldl_preserves P2 _ ?_ ns acc hacc
    intro a np ⟨h1, h2, h3, h4⟩
    refine ⟨?_, ?_, ?_, ?_⟩
    · show ((a.1.insNeigh vp np).wstore vp np _).verts = G.verts
      rw [verts_wstore, verts_insNeigh]
      exact h1
    · exact WCall_addEdge h2 vp np _
    · intro x y
      show ((a.2.wreadIns vp np).2).wread x y = G.wread x y
      rw [wreadIns_snd_wread]
      exact h3 x y
    · intro hnn x y
      show 0 ≤ ((a.1.insNeigh vp np).wstore vp np (a.2.wreadIns vp np).1).wread x y
      by_cases hxy : x = vp ∧ y = np
      · rw [hxy.1, hxy.2, wread_wstore_self, wreadIns_fst, h3]
        exact hnn vp np
      · rw [wread_wstore_other _ _ _ _ _ _ hxy, wread_insNeigh]
        exact h4 hnn x y
  set init : Graph := ⟨G.verts, G.verts.map (fun v => (v, ⟨[], []⟩))⟩ with hinit
  have hinit2 : P2 (init, G) := by
    refine ⟨rfl, ?_, fun _ _ => rfl, ?_⟩
    · intro v n hn
      exfalso
      unfold Graph.neighsOf Graph.getVtx at hn
      rw [hinit] at hn
      simp only [] at hn
      rw [alook_map_const] at hn
      split at hn <;> simp at hn
    · intro _ v n
      unfold Graph.wread Graph.wfind Graph.getVtx
      rw [hinit]
      simp only []
      rw [alook_map_const]
      split <;> simp [alook]
  have h2 := foldl_preserves P2 _ (fun acc vp h => hstep2 acc vp h (G.neighsOf vp))
    G.verts (init, G) hinit2
  set mid := G.verts.foldl (fun acc vp =>
      (G.neighsOf vp).foldl (fun acc np =>
        ((acc.1.insNeigh vp np).wstore vp np (acc.2.wreadIns vp np).1,
          (acc.2.wreadIns vp np).2)) acc) (init, G) with hmid
  set P3 : Graph → Prop := fun res =>
    res.verts = G.verts ∧ WCall res ∧
    ((∀ v n, 0 ≤ G.wread v n) → ∀ a b, 0 ≤ res.wread a b) with hP3
  have hstep3 : ∀ (res : Graph) (vp : VId), P3 res →
      ∀ (ns : List VId), P3 (ns.foldl (fun res np =>
        if vp ∈ res.neighsOf np then res
        else (res.insNeigh np vp).wstore np vp 0) res) := by
    intro res vp hres ns
    refine foldl_preserves P3 _ ?_ ns res hres
    intro r np ⟨h1, h2, h3⟩
    by_cases hmem : vp ∈ r.neighsOf np
    · rw [if_pos hmem]
      exact ⟨h1, h2, h3⟩
    · rw [if_neg hmem]
      refine ⟨?_, WCall_addEdge h2 np vp 0, ?_⟩
      · rw [verts_wstore, verts_insNeigh]
        exact h1
      · intro hnn x y
        by_cases hxy : x = np ∧ y = vp
        · rw [hxy.1, hxy.2, wread_wstore_self]
        · rw [wread_wstore_other _ _ _ _ _ _ hxy, wread_insNeigh]
          exact h3 hnn x y
  have h3 := foldl_preserves P3 _ (fun res vp h => hstep3 res vp h (G.neighsOf vp))
    G.verts mid.1 ⟨h2.1, h2.2.1, h2.2.2.2⟩
  exact ⟨h3.1, h3.2.1, h3.2.2⟩

/-! ## The Edmonds–Karp loop invariant (claim C9) -/

/-- The residual state after `n` completed iterations of the
Edmonds–Karp loop body (stationary once no augmenting path is
found). -/
def ekIter (s t : VId) (R : Graph) : Nat → Graph
  | 0 => R
  | n + 1 =>
      match augmenting_path (some s) (some t) (ekIter s t R n) with
      | .ok (true, P) => augmentPath (ekIter s t R n) P
      | _ => ekIter s t R n

theorem pairsOf_get : ∀ (l : List VId) (a b : VId),
    (a, b) ∈ pairsOf l ↔ ∃ i, l.get? i = some a ∧ l.get? (i + 1) = some b
  | [], a, b => by
      simp [pairsOf]
  | [x], a, b => by
      constructor
      · intro h
        simp [pairsOf] at h
      · rintro ⟨i, h1, h2⟩
        cases i with
        | zero => simp at h2
        | succ i => simp at h1
  | x :: y :: rest, a, b => by
      constructor
      · intro h
        rcases List.mem_cons.mp h with h' | h'
        · refine ⟨0, ?_, ?_⟩
          · rw [show a = x from congrArg Prod.fst h']
            rfl
          · rw [show b = y from congrArg Prod.snd h']
            rfl
        · obtain ⟨i, h1, h2⟩ := (pairsOf_get (y :: rest) a b).mp h'
          exact ⟨i + 1, h1, h2⟩
      · rintro ⟨i, h1, h2⟩
        cases i with
        | zero =>
          simp at h1 h2
          rw [show pairsOf (x :: y :: rest) = (x, y) :: pairsOf (y :: rest) from rfl]
          rw [h1, h2]
          exact List.mem_cons_self _ _
        | succ i =>
          have h' : (a, b) ∈ pairsOf (y :: rest) :=
            (pairsOf_get (y :: rest) a b).mpr ⟨i, h1, h2⟩
          exact List.mem_cons_of_mem _ h'

theorem nodup_get?_inj : ∀ (l : List VId), l.Nodup →
    ∀ (i j : Nat) (a : VId), l.get? i = some a → l.get? j = some a → i = j
  | [], _, i, j, a, h1, _ => by simp at h1
  | x :: rest, hnd, i, j, a, h1, h2 => by
      cases i with
      | zero =>
        cases j with
        | zero => rfl
        | succ j =>
          simp at h1
          have hmem : a ∈ rest := List.get?_mem h2
          rw [← h1] at hmem
          exact absurd hmem (List.nodup_cons.mp hnd).1
      | succ i =>
        cases j with
        | zero =>
          simp at h2
          have hmem : a ∈ rest := List.get?_mem h1
          rw [← h2] at hmem
          exact absurd hmem (List.nodup_cons.mp hnd).1
        | succ j =>
          have := nodup_get?_inj rest (List.nodup_cons.mp hnd).2 i j a h1 h2
          omega

theorem pairsOf_not_rev {P : List VId} (hnd : P.Nodup) {a b : VId}
    (h : (a, b) ∈ pairsOf P) : (b, a) ∉ pairsOf P := by
  intro hc
  obtain ⟨i, hi1, hi2⟩ := (pairsOf_get P a b).mp h
  obtain ⟨j, hj1, hj2⟩ := (pairsOf_get P b a).mp hc
  have e1 : i = j + 1 := nodup_get?_inj P hnd i (j + 1) a hi1 hj2
  have e2 : i + 1 = j := nodup_get?_inj P hnd (i + 1) j b hi2 hj1
  omega

/-- One augmentation keeps all residual capacities non-negative. -/
theorem augment_nonneg {R : Graph} {s t : VId} {P : List VId}
    (hnn : ∀ v n, 0 ≤ R.wread v n)
    (h : augmenting_path (some s) (some t) R = .ok (true, P)) :
    ∀ v n, 0 ≤ (augmentPath R P).wread v n := by
  obtain ⟨hpath, hnd⟩ := augmenting_path_true_spec s t R P h
  intro a b
  rw [augmentPath_wread P R a b hnd]
  have hv := hnn a b
  by_cases h1 : (a, b) ∈ pairsOf P
  · obtain ⟨rest, hre, hchain, _⟩ := hpath
    have hedge : edgeNz R a b := by
      refine pairsOf_edge s rest hchain a b ?_
      rw [← hre]
      exact h1
    have hne := hedge.2
    by_cases h2 : (b, a) ∈ pairsOf P <;> simp [h1, h2] <;> omega
  · by_cases h2 : (b, a) ∈ pairsOf P <;> simp [h1, h2] <;> omega

theorem ekIter_succ_eq (s t : VId) (R : Graph) (n : Nat) :
    ekIter s t R (n + 1) =
      (match augmenting_path (some s) (some t) (ekIter s t R n) with
      | .ok (true, P) => augmentPath (ekIter s t R n) P
      | _ => ekIter s t R n) := rfl

theorem ekIter_nonneg (s t : VId) (R : Graph) (hnn : ∀ v m, 0 ≤ R.wread v m) :
    ∀ n, ∀ v m, 0 ≤ (ekIter s t R n).wread v m := by
  intro n
  induction n with
  | zero => exact hnn
  | succ n ih =>
    rw [ekIter_succ_eq]
    cases hap : augmenting_path (some s) (some t) (ekIter s t R n) with
    | error e => exact ih
    | ok r =>
      obtain ⟨b, P⟩ := r
      cases b with
      | false => exact ih
      | true => exact augment_nonneg ih hap

/-- Claim C9: starting from the residual graph of any non-negative
input, every residual capacity stays non-negative after every
augmentation of the Edmonds–Karp loop, and each augmentation
decrements the capacity of every forward path edge by exactly one
while incrementing the paired reverse capacity by exactly one. -/
theorem residual_invariants (sv tv : VId) (G : Graph)
    (hnn : ∀ v n, 0 ≤ G.wread v n) :
    (∀ n v m, 0 ≤ (ekIter sv tv (buildResidual G).1 n).wread v m) ∧
    (∀ n P, augmenting_path (some sv) (some tv) (ekIter sv tv (buildResidual G).1 n)
        = .ok (true, P) →
      ekIter sv tv (buildResidual G).1 (n + 1)
          = augmentPath (ekIter sv tv (buildResidual G).1 n) P ∧
      ∀ a b, (a, b) ∈ pairsOf P →
        (ekIter sv tv (buildResidual G).1 (n + 1)).wread a b
            = (ekIter sv tv (buildResidual G).1 n).wread a b - 1 ∧
        (ekIter sv tv (buildResidual G).1 (n + 1)).wread b a
            = (ekIter sv tv (buildResidual G).1 n).wread b a + 1) := by
  have hres := (buildResidual_props G).2.2 hnn
  refine ⟨fun n => ekIter_nonneg sv tv _ hres n, ?_⟩
  intro n P hap
  have hstep : ekIter sv tv (buildResidual G).1 (n + 1)
      = augmentPath (ekIter sv tv (buildResidual G).1 n) P := by
    rw [ekIter_succ_eq, hap]
  refine ⟨hstep, ?_⟩
  intro a b hab
  obtain ⟨_, hnd⟩ := augmenting_path_true_spec sv tv _ P hap
  have hrev : (b, a) ∉ pairsOf P := pairsOf_not_rev hnd hab
  rw [hstep]
  constructor
  · rw [augmentPath_wread P _ a b hnd, if_pos hab, if_neg hrev]
    omega
  · rw [augmentPath_wread P _ b a hnd, if_pos hab, if_neg hrev]
    omega

/-- `residual_invariants` instantiated on a concrete unit-capacity
graph. -/
theorem residual_invariants_witness :
    (∀ n v m, 0 ≤ (ekIter 0 1 (buildResidual apGw).1 n).wread v m) ∧
    (∀ n P, augmenting_path (some 0) (some 1) (ekIter 0 1 (buildResidual apGw).1 n)
        = .ok (true, P) →
      ekIter 0 1 (buildResidual apGw).1 (n + 1)
          = augmentPath (ekIter 0 1 (buildResidual apGw).1 n) P ∧
      ∀ a b, (a, b) ∈ pairsOf P →
        (ekIter 0 1 (buildResidual apGw).1 (n + 1)).wread a b
            = (ekIter 0 1 (buildResidual apGw).1 n).wread a b - 1 ∧
        (ekIter 0 1 (buildResidual apGw).1 (n + 1)).wread b a
            = (ekIter 0 1 (buildResidual apGw).1 n).wread b a + 1) :=
  residual_invariants 0 1 apGw (wread_nonneg_of_stores apGw (by decide))

/-! ## Abort behaviour and termination of the engine (claim C8) -/

/-- The entry contract shared by `augmenting_path` and `max_flow`:
`s` and `t` non-null members of `V`, and every neighbour entry backed
by a weight entry. -/
def EnginePre (G : Graph) (s t : Option VId) : Prop :=
  ∃ sv tv, s = some sv ∧ t = some tv ∧ sv ∈ G.verts ∧ tv ∈ G.verts ∧
    weightsComplete G = true

/-- Every neighbour of a vertex of `V` lies in `V` itself. -/
def NeighClosed (G : Graph) : Prop :=
  ∀ v ∈ G.verts, ∀ n ∈ G.neighsOf v, n ∈ G.verts

theorem augmenting_path_ok (sv tv : VId) (G : Graph)
    (hmem : sv ∈ G.verts ∧ tv ∈ G.verts) (hwc : weightsComplete G = true) :
    ∃ r, augmenting_path (some sv) (some tv) G = .ok r := by
  rw [augmenting_path_checked sv tv G hmem hwc]
  split
  · exact ⟨_, rfl⟩
  · exact ⟨_, rfl⟩

theorem WCall_augmentPath {R : Graph} (hW : WCall R) (P : List VId) :
    WCall (augmentPath R P) := by
  intro v n hn
  rw [augmentPath_neighsOf] at hn
  exact augmentPath_wfind_isSome P R v n (hW v n hn)

/-- Invariant of the Edmonds–Karp loop state. -/
structure EkInv (s t : VId) (R : Graph) : Prop where
  hs : s ∈ R.verts
  ht : t ∈ R.verts
  hW : WCall R
  hnn : ∀ v n, 0 ≤ R.wread v n

theorem ekInv_step {s t : VId} {R : Graph} {P : List VId} (hInv : EkInv s t R)
    (hap : augmenting_path (some s) (some t) R = .ok (true, P)) :
    EkInv s t (augmentPath R P) := by
  refine ⟨?_, ?_, WCall_augmentPath hInv.hW P, augment_nonneg hInv.hnn hap⟩
  · rw [augmentPath_verts]
    exact hInv.hs
  · rw [augmentPath_verts]
    exact hInv.ht

/-- Total residual capacity out of `s`, as a natural number. -/
def sOutNat (R : Graph) (s : VId) : Nat :=
  ((R.neighsOf s).map (fun n => (R.wread s n).toNat)).sum

theorem ekFuel_eq (R : Graph) (s : VId) : ekFuel R s = 1 + sOutNat R s := rfl

theorem sum_map_le {f g : VId → Nat} (hle : ∀ y, g y ≤ f y) :
    ∀ (M : List VId), (M.map g).sum ≤ (M.map f).sum := by
  intro M
  induction M with
  | nil => simp
  | cons b bs ihb =>
    simp only [List.map_cons, List.sum_cons]
    exact Nat.add_le_add (hle b) ihb

theorem sum_map_lt {L : List VId} {f g : VId → Nat} {x : VId}
    (hx : x ∈ L) (hlt : g x < f x) (heq : ∀ y, y ≠ x → g y = f y) :
    (L.map g).sum < (L.map f).sum := by
  have hle : ∀ y, g y ≤ f y := by
    intro y
    by_cases hy : y = x
    · subst hy; omega
    · rw [heq y hy]
  induction L with
  | nil => cases hx
  | cons a rest ih =>
    rcases List.mem_cons.mp hx with rfl | hx'
    · simp only [List.map_cons, List.sum_cons]
      have := sum_map_le hle rest
      omega
    · simp only [List.map_cons, List.sum_cons]
      have := ih hx'
      have := hle a
      omega

/-- Each successful augmentation (with `s ≠ t`) removes exactly one
unit of residual capacity from the edges out of `s`. -/
theorem sOut_decrease {R : Graph} {s t : VId} {P : List VId}
    (hnn : ∀ v n, 0 ≤ R.wread v n) (hst : s ≠ t)
    (hap : augmenting_path (some s) (some t) R = .ok (true, P)) :
    sOutNat (augmentPath R P) s < sOutNat R s := by
  obtain ⟨hpath, hnd⟩ := augmenting_path_true_spec s t R P hap
  obtain ⟨rest, hre, hchain, hlast⟩ := hpath
  cases rest with
  | nil =>
    exfalso
    simp at hlast
    exact hst hlast
  | cons p1 rest' =>
    subst hre
    have hhead : (s, p1) ∈ pairsOf (s :: p1 :: rest') := List.mem_cons_self _ _
    have hsnotin : s ∉ p1 :: rest' := (List.nodup_cons.mp hnd).1
    have hedge : edgeNz R s p1 := by
      cases hchain with
      | cons h _ => exact h
    have hfst : ∀ n, (s, n) ∈ pairsOf (s :: p1 :: rest') → n = p1 := by
      intro n hn
      rcases List.mem_cons.mp hn with h' | h'
      · exact congrArg Prod.snd h'
      · exact absurd (pairsOf_fst_mem _ _ _ h') hsnotin
    have hrev : ∀ n, (n, s) ∉ pairsOf (s :: p1 :: rest') := by
      intro n hn
      exact hsnotin (pairsOf_snd_mem_tail _ _ _ hn)
    have hw : ∀ n, (augmentPath R (s :: p1 :: rest')).wread s n
        = R.wread s n - (if n = p1 then 1 else 0) := by
      intro n
      rw [augmentPath_wread _ _ _ _ hnd, if_neg (hrev n)]
      by_cases hn : n = p1
      · subst hn
        rw [if_pos hhead]
        simp
      · rw [if_neg (fun hc => hn (hfst n hc)), if_neg hn]
        simp
    unfold sOutNat
    rw [augmentPath_neighsOf]
    refine sum_map_lt hedge.1 ?_ ?_
    · rw [hw p1, if_pos rfl]
      have h1 := hnn s p1
      have h2 := hedge.2
      omega
    · intro y hy
      rw [hw y, if_neg hy]
      simp

theorem ekLoop_succ_eq (s t : VId) (fuel : Nat) (R : Graph) :
    ekLoop s t (fuel + 1) R =
      (match augmenting_path (some s) (some t) R with
      | .error e => .error e
      | .ok (false, _) => .ok (some R)
      | .ok (true, P) => ekLoop s t fuel (augmentPath R P)) := rfl

theorem ekLoop_terminates (s t : VId) (hst : s ≠ t) :
    ∀ (fuel : Nat) (R : Graph), EkInv s t R → sOutNat R s < fuel →
      ∃ resF, ekLoop s t fuel R = .ok (some resF) := by
  intro fuel
  induction fuel with
  | zero => intro R _ h; omega
  | succ fuel ih =>
    intro R hInv hfuel
    rw [ekLoop_succ_eq]
    obtain ⟨r, hr⟩ := augmenting_path_ok s t R ⟨hInv.hs, hInv.ht⟩
      (weightsComplete_of_WCall hInv.hW)
    rw [hr]
    obtain ⟨b, P⟩ := r
    cases b with
    | false => exact ⟨R, rfl⟩
    | true =>
      have hdec := sOut_decrease hInv.hnn hst hr
      exact ih (augmentPath R P) (ekInv_step hInv hr) (by omega)

theorem ekLoop_no_error (s t : VId) :
    ∀ (fuel : Nat) (R : Graph), s ∈ R.verts → t ∈ R.verts → WCall R →
      ∀ e, ekLoop s t fuel R ≠ .error e := by
  intro fuel
  induction fuel with
  | zero =>
    intro R _ _ _ e h
    cases h
  | succ fuel ih =>
    intro R hs ht hW e
    rw [ekLoop_succ_eq]
    obtain ⟨r, hr⟩ := augmenting_path_ok s t R ⟨hs, ht⟩ (weightsComplete_of_WCall hW)
    rw [hr]
    obtain ⟨b, P⟩ := r
    cases b with
    | false => intro h; cases h
    | true =>
      exact ih (augmentPath R P) (by rw [augmentPath_verts]; exact hs)
        (by rw [augmentPath_verts]; exact ht) (WCall_augmentPath hW P) e

/-- Claim C8 (amended): both engine entry points abort exactly when
the entry contract is violated; `augmenting_path` returns normally on
every input meeting the contract; `max_flow` returns normally when
additionally the vertex set is closed under adjacency (a neighbour
outside `V` makes the C++ code write through the null copy pointer
`C[np]` — undefined behaviour outside the embedding), all capacities
are non-negative (the routine's documented assumption), and `s ≠ t`
(`max_flow(s, s, V)` loops forever: `max_flow_self_loop_diverges`). -/
theorem engine_aborts_iff_contract_violated (G : Graph) (s t : Option VId) :
    ((∃ e, augmenting_path s t G = .error e) ↔ ¬ EnginePre G s t) ∧
    ((∃ e, max_flow s t G = .error e) ↔ ¬ EnginePre G s t) ∧
    (EnginePre G s t → ∃ r, augmenting_path s t G = .ok r) ∧
    (EnginePre G s t → NeighClosed G → (∀ v n, 0 ≤ G.wread v n) → s ≠ t →
      ∃ fv G', max_flow s t G = .ok (some (fv, G'))) := by
  have hok : EnginePre G s t → ∃ r, augmenting_path s t G = .ok r := by
    rintro ⟨sv, tv, rfl, rfl, h1, h2, h3⟩
    exact augmenting_path_ok sv tv G ⟨h1, h2⟩ h3
  have hmok : EnginePre G s t → ∃ r, max_flow s t G = .ok r := by
    rintro ⟨sv, tv, rfl, rfl, h1, h2, h3⟩
    rw [max_flow_checked sv tv G ⟨h1, h2⟩ h3]
    obtain ⟨hverts, hW, _⟩ := buildResidual_props G
    cases hek : ekLoop sv tv (ekFuel (buildResidual G).1 sv) (buildResidual G).1 with
    | error e =>
      exact absurd hek (ekLoop_no_error sv tv _ _ (hverts ▸ h1) (hverts ▸ h2) hW e)
    | ok o =>
      cases o with
      | none => exact ⟨none, rfl⟩
      | some resF => exact ⟨_, rfl⟩
  have herr : ¬ EnginePre G s t → (∃ e, augmenting_path s t G = .error e) ∧
      (∃ e, max_flow s t G = .error e) := by
    intro hnp
    match s, t with
    | none, t => exact ⟨⟨(), rfl⟩, ⟨(), rfl⟩⟩
    | some sv, none => exact ⟨⟨(), rfl⟩, ⟨(), rfl⟩⟩
    | some sv, some tv =>
      by_cases hmem : sv ∈ G.verts ∧ tv ∈ G.verts
      · by_cases hwc : weightsComplete G = true
        · exact absurd ⟨sv, tv, rfl, rfl, hmem.1, hmem.2, hwc⟩ hnp
        · constructor
          · refine ⟨(), ?_⟩
            rw [augmenting_path_eq, if_pos hmem, if_neg hwc]
          · refine ⟨(), ?_⟩
            rw [show max_flow (some sv) (some tv) G = (if sv ∈ G.verts ∧ tv ∈ G.verts then
                (if weightsComplete G = true then
                  let b := buildResidual G
                  match ekLoop sv tv (ekFuel b.1 sv) b.1 with
                  | Except.error e => Except.error e
                  | Except.ok none => Except.ok none
                  | Except.ok (some resF) =>
                      Except.ok (some ((List.map (fun n => 1 - resF.wread sv n)
                        (resF.neighsOf sv)).sum, b.2))
                else Except.error ())
              else Except.error ()) from rfl, if_pos hmem, if_neg hwc]
      · constructor
        · refine ⟨(), ?_⟩
          rw [augmenting_path_eq, if_neg hmem]
        · refine ⟨(), ?_⟩
          rw [show max_flow (some sv) (some tv) G = (if sv ∈ G.verts ∧ tv ∈ G.verts then
              (if weightsComplete G = true then
                let b := buildResidual G
                match ekLoop sv tv (ekFuel b.1 sv) b.1 with
                | Except.error e => Except.error e
                | Except.ok none => Except.ok none
                | Except.ok (some resF) =>
                    Except.ok (some ((List.map (fun n => 1 - resF.wread sv n)
                      (resF.neighsOf sv)).sum, b.2))
              else Except.error ())
            else Except.error ()) from rfl, if_neg hmem]
  refine ⟨⟨?_, ?_⟩, ⟨?_, ?_⟩, hok, ?_⟩
  · rintro ⟨e, he⟩ hp
    obtain ⟨r, hr⟩ := hok hp
    rw [hr] at he
    cases he
  · intro hnp
    exact (herr hnp).1
  · rintro ⟨e, he⟩ hp
    obtain ⟨r, hr⟩ := hmok hp
    rw [hr] at he
    cases he
  · intro hnp
    exact (herr hnp).2
  · rintro ⟨sv, tv, rfl, rfl, h1, h2, h3⟩ hcl hnn hst
    have hst' : sv ≠ tv := fun hc => hst (by rw [hc])
    rw [max_flow_checked sv tv G ⟨h1, h2⟩ h3]
    obtain ⟨hverts, hW, hresnn⟩ := buildResidual_props G
    have hInv : EkInv sv tv (buildResidual G).1 :=
      ⟨hverts ▸ h1, hverts ▸ h2, hW, hresnn hnn⟩
    obtain ⟨resF, hek⟩ := ekLoop_terminates sv tv hst' (ekFuel (buildResidual G).1 sv)
      (buildResidual G).1 hInv (by rw [ekFuel_eq]; omega)
    rw [hek]
    exact ⟨_, _, rfl⟩

/-- The one-vertex graph with no edges. -/
def trivGraph : Graph := ⟨[0], [(0, ⟨[], []⟩)]⟩

/-- Claim C8 as stated fails: with `V = {s}` and `t = s` every listed
precondition holds, yet `max_flow` never returns — the augmenting
path `[s]` has no edge, so the update loop changes nothing and the
`while (true)` loop repeats the identical iteration forever (no fuel
makes the embedded loop finish). -/
theorem max_flow_self_loop_diverges :
    EnginePre trivGraph (some 0) (some 0) ∧
    (∀ fuel, ekLoop 0 0 fuel (buildResidual trivGraph).1 = .ok none) ∧
    max_flow (some 0) (some 0) trivGraph = .ok none := by
  refine ⟨⟨0, 0, rfl, rfl, by decide, by decide, by decide⟩, ?_, by decide⟩
  intro fuel
  induction fuel with
  | zero => rfl
  | succ fuel ih =>
    rw [ekLoop_succ_eq]
    have h1 : augmenting_path (some 0) (some 0) (buildResidual trivGraph).1
        = .ok (true, [0]) := by decide
    rw [h1]
    exact ih

/-- `engine_aborts_iff_contract_violated` instantiated: on the
two-vertex unit-capacity graph every additional condition holds and
`max_flow` returns normally. -/
theorem engine_aborts_iff_witness :
    ∃ fv G', max_flow (some 0) (some 1) apGw = .ok (some (fv, G')) :=
  (engine_aborts_iff_contract_violated apGw (some 0) (some 1)).2.2.2
    ⟨0, 1, rfl, rfl, by decide, by decide, by decide⟩
    (by unfold NeighClosed; decide)
    (wread_nonneg_of_stores apGw (by decide))
    (by decide)
